import Mathlib

/-!
# Verification of the `Money` / `Odds` TypeScript library

This file gives a shallow embedding of the two source classes (`money.ts`,
`odds.ts`) and proves/refutes the frozen specification claims about them.

JavaScript numbers are modelled as exact rationals extended with the three
special values `Infinity`, `-Infinity` and `NaN`.  Rationals are represented
executably by integer pairs (`JQ`, numerator/positive denominator, not
necessarily reduced) so that every definition evaluates inside the kernel;
the semantic value of a `JQ` in `ℚ` is given by `JQ.val`.  String/number
conversions (`toFixed`, unary `+`, `Math.round`, `toString`) follow the
ECMAScript algorithms on exact rationals.  Deliberate model restrictions
(each noted again at the definition): string→number parsing covers decimal
literals and `Infinity` (no hex/exponent forms), `toUpperCase`/`trim` act on
ASCII, and `Number.prototype.toString` prints the exact decimal expansion
(which agrees with JS for the short terminating decimals exercised here).
-/

/-- Executable rational: numerator over a positive denominator (not reduced).
Value-level equality is `JQ.beq`; `=` is representation equality. -/
structure JQ where
  n : ℤ
  d : ℤ
  dpos : 0 < d

instance : DecidableEq JQ := fun a b =>
  if h : a.n = b.n ∧ a.d = b.d then
    .isTrue (by cases a; cases b; simp only at h; simp [h.1, h.2])
  else
    .isFalse (by intro hh; cases a; cases b; cases hh; simp at h)

/-- The rational an integer pair denotes. -/
def JQ.val (x : JQ) : ℚ := (x.n : ℚ) / (x.d : ℚ)

/-- Integer as a `JQ`. -/
def jqZ (z : ℤ) : JQ := ⟨z, 1, Int.zero_lt_one⟩

/-- Decimal fraction `n / 10^k` as a `JQ`. -/
def jqD (n : ℤ) (k : ℕ) : JQ := ⟨n, 10 ^ k, pow_pos (by norm_num) k⟩

def JQ.add (x y : JQ) : JQ := ⟨x.n * y.d + y.n * x.d, x.d * y.d, mul_pos x.dpos y.dpos⟩

def JQ.neg (x : JQ) : JQ := ⟨-x.n, x.d, x.dpos⟩

def JQ.sub (x y : JQ) : JQ := x.add y.neg

def JQ.mul (x y : JQ) : JQ := ⟨x.n * y.n, x.d * y.d, mul_pos x.dpos y.dpos⟩

/-- Exact division (caller guarantees `y` is nonzero; the last branch is
unreachable then). The sign is moved to the numerator so that the
denominator stays positive. -/
def JQ.div (x y : JQ) : JQ :=
  if h : 0 < x.d * y.n then ⟨x.n * y.d, x.d * y.n, h⟩
  else if h' : x.d * y.n < 0 then ⟨-(x.n * y.d), -(x.d * y.n), by omega⟩
  else jqZ 0

/-- Value equality (JS `===` on two finite numbers). -/
def JQ.beq (x y : JQ) : Bool := x.n * y.d == y.n * x.d

def JQ.leB (x y : JQ) : Bool := decide (x.n * y.d ≤ y.n * x.d)

def JQ.ltB (x y : JQ) : Bool := decide (x.n * y.d < y.n * x.d)

def JQ.isNeg (x : JQ) : Bool := decide (x.n < 0)

def JQ.isZero (x : JQ) : Bool := x.n == 0

def JQ.abs (x : JQ) : JQ := ⟨|x.n|, x.d, x.dpos⟩

/-- `⌊x⌋` computed by integer (Euclidean = floor for positive divisor) division. -/
def JQ.floorZ (x : JQ) : ℤ := x.n / x.d

/-- A JavaScript number: finite rational, one of the two infinities, or NaN. -/
inductive JSNum where
  | fin (q : JQ)
  | inf
  | negInf
  | nan
deriving DecidableEq

def JSNum.isNaNB : JSNum → Bool
  | .nan => true
  | _ => false

def JSNum.isFiniteB : JSNum → Bool
  | .fin _ => true
  | _ => false

/-- Falsiness of a number (`0`, `-0` and `NaN` are falsy). -/
def JSNum.falsy : JSNum → Bool
  | .fin q => q.isZero
  | .nan => true
  | _ => false

def JSNum.add : JSNum → JSNum → JSNum
  | .nan, _ => .nan
  | _, .nan => .nan
  | .inf, .negInf => .nan
  | .negInf, .inf => .nan
  | .inf, _ => .inf
  | _, .inf => .inf
  | .negInf, _ => .negInf
  | _, .negInf => .negInf
  | .fin x, .fin y => .fin (x.add y)

def JSNum.neg : JSNum → JSNum
  | .nan => .nan
  | .inf => .negInf
  | .negInf => .inf
  | .fin x => .fin x.neg

def JSNum.sub (a b : JSNum) : JSNum := a.add b.neg

def JSNum.mul : JSNum → JSNum → JSNum
  | .nan, _ => .nan
  | _, .nan => .nan
  | .inf, .inf => .inf
  | .inf, .negInf => .negInf
  | .negInf, .inf => .negInf
  | .negInf, .negInf => .inf
  | .inf, .fin y => if y.isZero then .nan else if y.isNeg then .negInf else .inf
  | .fin x, .inf => if x.isZero then .nan else if x.isNeg then .negInf else .inf
  | .negInf, .fin y => if y.isZero then .nan else if y.isNeg then .inf else .negInf
  | .fin x, .negInf => if x.isZero then .nan else if x.isNeg then .inf else .negInf
  | .fin x, .fin y => .fin (x.mul y)

def JSNum.div : JSNum → JSNum → JSNum
  | .nan, _ => .nan
  | _, .nan => .nan
  | .inf, .inf => .nan
  | .inf, .negInf => .nan
  | .negInf, .inf => .nan
  | .negInf, .negInf => .nan
  | .fin _, .inf => .fin (jqZ 0)
  | .fin _, .negInf => .fin (jqZ 0)
  | .inf, .fin y => if y.isNeg then .negInf else .inf
  | .negInf, .fin y => if y.isNeg then .inf else .negInf
  | .fin x, .fin y =>
      if y.isZero then
        if x.isZero then .nan else if x.isNeg then .negInf else .inf
      else .fin (x.div y)

/-- JS `<` (false whenever NaN is involved). -/
def JSNum.ltB : JSNum → JSNum → Bool
  | .nan, _ => false
  | _, .nan => false
  | .fin x, .fin y => x.ltB y
  | .negInf, .negInf => false
  | .negInf, _ => true
  | _, .negInf => false
  | .inf, _ => false
  | .fin _, .inf => true

/-- JS `<=` (false whenever NaN is involved). -/
def JSNum.leB : JSNum → JSNum → Bool
  | .nan, _ => false
  | _, .nan => false
  | .fin x, .fin y => x.leB y
  | .negInf, _ => true
  | _, .negInf => false
  | _, .inf => true
  | .inf, .fin _ => false

/-- JS `>` on numbers. -/
def JSNum.gtB (a b : JSNum) : Bool := JSNum.ltB b a

/-- JS `===` on numbers (`NaN === NaN` is false). -/
def JSNum.strictEqB : JSNum → JSNum → Bool
  | .fin x, .fin y => x.beq y
  | .inf, .inf => true
  | .negInf, .negInf => true
  | _, _ => false

/-! ## Characters, digit strings, parsing and printing -/

def isDigitCh (c : Char) : Bool := 48 ≤ c.toNat && c.toNat ≤ 57

def digitToVal (c : Char) : ℕ := c.toNat - 48

def digitChar (n : ℕ) : Char := Char.ofNat (n % 10 + 48)

/-- Decimal digits of a natural number, most significant first (fuel-driven
so that it is structural; `natDigits` supplies sufficient fuel). -/
def natDigitsAux : ℕ → ℕ → List Char
  | 0, _ => []
  | fuel + 1, n => if n < 10 then [digitChar n] else natDigitsAux fuel (n / 10) ++ [digitChar (n % 10)]

def natDigits (n : ℕ) : List Char := natDigitsAux (n + 1) n

/-- `natDigits` zero-padded on the left to `k` characters. -/
def padDigits (k n : ℕ) : List Char := List.replicate (k - (natDigits n).length) '0' ++ natDigits n

def digitStep (a : ℕ) (c : Char) : ℕ := a * 10 + digitToVal c

def foldDigits (cs : List Char) : ℕ := cs.foldl digitStep 0

/-- ASCII whitespace recognised by `Number(...)` / `trim` in this model. -/
def isWsChar (c : Char) : Bool := c.toNat = 32 || c.toNat = 9 || c.toNat = 10 || c.toNat = 13 || c.toNat = 11 || c.toNat = 12

def trimChars (cs : List Char) : List Char := ((cs.dropWhile isWsChar).reverse.dropWhile isWsChar).reverse

/-- Parse an unsigned decimal literal (`"12"`, `"12.5"`, `".5"`, `"12."`). -/
def parseDecCore (cs : List Char) : Option JQ :=
  let ip := cs.takeWhile isDigitCh
  let rest := cs.dropWhile isDigitCh
  if rest = [] then (if ip.isEmpty then none else some (jqZ (foldDigits ip)))
  else if rest.head? = some '.' then
    let fp := rest.drop 1
    if fp.all isDigitCh && !(ip.isEmpty && fp.isEmpty) then
      some (jqD ((foldDigits ip) * 10 ^ fp.length + foldDigits fp) fp.length)
    else none
  else none

def parseMag (cs : List Char) (neg : Bool) : JSNum :=
  if cs = ['I', 'n', 'f', 'i', 'n', 'i', 't', 'y'] then (if neg then .negInf else .inf)
  else
    match parseDecCore cs with
    | some q => .fin (if neg then q.neg else q)
    | none => .nan

/-- JS string→number coercion (`+s` / `Number(s)`): trims whitespace, the
empty string is `0`, otherwise an optionally signed decimal literal or
`Infinity`.  (Model restriction: hex/binary/exponent literals are not
covered; no claim exercises them.) -/
def jsStrToNumber (s : String) : JSNum :=
  let cs := trimChars s.data
  if cs = [] then .fin (jqZ 0)
  else if cs.head? = some '+' then parseMag (cs.drop 1) false
  else if cs.head? = some '-' then parseMag (cs.drop 1) true
  else parseMag cs false

/-- The integer `n` with `n/10^k` nearest to `x` (ties toward the larger
`n`), for `x ≥ 0`: the rounding step of `Number.prototype.toFixed`.
`⌊x·10^k + 1/2⌋` computed on the integer pair. -/
def tfN (k : ℕ) (x : JQ) : ℕ := ((2 * x.n * 10 ^ k + x.d) / (2 * x.d)).toNat

/-- Digit string of `m` scaled down by `10^k` (`m = 375, k = 2 ↦ "3.75"`). -/
def scaledDigits (k m : ℕ) : List Char :=
  if k = 0 then natDigits m else natDigits (m / 10 ^ k) ++ '.' :: padDigits k (m % 10 ^ k)

/-- ECMAScript `Number.prototype.toFixed` for a finite value: split off the
sign, round the magnitude to `k` fractional digits, print. -/
def toFixedFin (k : ℕ) (q : JQ) : String :=
  ⟨(if q.isNeg then ['-'] else []) ++ scaledDigits k (tfN k q.abs)⟩

def toFixedJS (k : ℕ) : JSNum → String
  | .fin q => toFixedFin k q
  | .nan => "NaN"
  | .inf => "Infinity"
  | .negInf => "-Infinity"

/-- JS `Math.round`: nearest integer, ties toward `+∞` (`⌊x + 1/2⌋`). -/
def mathRound : JSNum → JSNum
  | .fin q => .fin (jqZ ((2 * q.n + q.d) / (2 * q.d)))
  | .nan => .nan
  | .inf => .inf
  | .negInf => .negInf

/-- Fractional decimal digits of `num/den` (`0 ≤ num < den`), fuel-limited. -/
def fracDigits : ℕ → ℤ → ℤ → List Char
  | 0, _, _ => []
  | fuel + 1, num, den =>
      if num ≤ 0 then []
      else
        let dig := 10 * num / den
        digitChar dig.toNat :: fracDigits fuel (10 * num - dig * den) den

/-- JS number→string. For finite values this prints the exact decimal
expansion (up to 50 fractional digits); it agrees with JS's
shortest-roundtrip printing on the short terminating decimals that arise in
this library. -/
def numToString : JSNum → String
  | .nan => "NaN"
  | .inf => "Infinity"
  | .negInf => "-Infinity"
  | .fin q =>
      let ip := q.abs.floorZ
      let rem := |q.n| - q.d * ip
      ⟨(if q.isNeg then ['-'] else []) ++ natDigits ip.toNat ++
        (if rem ≤ 0 then [] else '.' :: fracDigits 50 rem q.d)⟩

/-! ## JavaScript values -/

/-- The JS values a caller can pass: a number, a string, a boolean, `null`,
`undefined`, or a generic (non-callable, non-array) object. -/
inductive JSVal where
  | num (x : JSNum)
  | str (s : String)
  | bool (b : Bool)
  | null
  | undef
  | obj
deriving DecidableEq

def typeofStr : JSVal → String
  | .num _ => "number"
  | .str _ => "string"
  | .bool _ => "boolean"
  | .null => "object"
  | .undef => "undefined"
  | .obj => "object"

def jsFalsy : JSVal → Bool
  | .num x => x.falsy
  | .str s => s = ""
  | .bool b => !b
  | .null => true
  | .undef => true
  | .obj => false

/-- JS `v === 0`. -/
def jsStrictEqZero : JSVal → Bool
  | .num x => x.strictEqB (.fin (jqZ 0))
  | _ => false

/-- JS `ToNumber` coercion (unary `+`). -/
def jsToNumber : JSVal → JSNum
  | .num x => x
  | .str s => jsStrToNumber s
  | .bool b => .fin (jqZ (if b then 1 else 0))
  | .null => .fin (jqZ 0)
  | .undef => .nan
  | .obj => .nan

/-- JS template-literal stringification `${v}`. -/
def jsTemplate : JSVal → String
  | .num x => numToString x
  | .str s => s
  | .bool b => if b then "true" else "false"
  | .null => "null"
  | .undef => "undefined"
  | .obj => "[object Object]"

/-- JS `v.toString()`: throws a TypeError (`none`) on `null`/`undefined`. -/
def jsToStringE : JSVal → Option String
  | .null => none
  | .undef => none
  | v => some (jsTemplate v)

/-- JS `String.prototype.split` with a single-character separator. -/
def splitOnCharAux (sep : Char) : List Char → List Char → List String
  | [], acc => [⟨acc.reverse⟩]
  | c :: cs, acc =>
      if c = sep then ⟨acc.reverse⟩ :: splitOnCharAux sep cs []
      else splitOnCharAux sep cs (c :: acc)

def splitOnChar (sep : Char) (s : String) : List String := splitOnCharAux sep s.data []

/-- ASCII `toLowerCase` on one character. -/
def lowChar (c : Char) : Char :=
  if 65 ≤ c.toNat ∧ c.toNat ≤ 90 then Char.ofNat (c.toNat + 32) else c

/-- ASCII `toUpperCase` on one character. -/
def upChar (c : Char) : Char :=
  if 97 ≤ c.toNat ∧ c.toNat ≤ 122 then Char.ofNat (c.toNat - 32) else c

/-- `String.prototype.trim` (ASCII whitespace). -/
def jsTrim (s : String) : String := ⟨trimChars s.data⟩

/-- `String.prototype.toUpperCase` (ASCII). -/
def jsToUpper (s : String) : String := ⟨s.data.map upChar⟩

/-! ## The `Money` class (`money.ts`) -/

/-- The typed errors thrown by `Money` (`this.ERRORS` plus the plain `Error`
of `fromUnit` and the native TypeError that a non-number `cents.toFixed`
call raises). Payloads carry the interpolated values. -/
inductive MoneyErr where
  | missingArg
  | nanArg (v : JSVal)
  | infinity
  | zeroDivision
  | invalidType (t : String)
  | currencyMismatch (a b : String)
  | portionsSum (ps : List JQ)
  | comparison (a b : String)
  | conversion (v : JSVal)
  | typeError
deriving DecidableEq

structure Money where
  cents : JSNum
  currency : String
deriving DecidableEq

def DEFAULT_CURRENCY : String := "USD"

/-- The currency stored by the constructor:
`currency && currency.trim().length > 0 ? currency.trim().toUpperCase() : DEFAULT`. -/
def normCurrency : Option String → String
  | none => DEFAULT_CURRENCY
  | some c => if c ≠ "" ∧ 0 < (jsTrim c).length then jsToUpper (jsTrim c) else DEFAULT_CURRENCY

/-- `new Money(cents, currency)`.
`if (!cents && cents !== 0) throw missingArg; validateNumber; validateInfinity;
this.cents = +cents.toFixed(0)`. A non-number `cents` that survives the
validations (e.g. a numeric string) crashes on `cents.toFixed` with a native
TypeError. -/
def Money.construct (cents : JSVal) (currency : Option String) : Except MoneyErr Money :=
  if jsFalsy cents && !jsStrictEqZero cents then .error .missingArg
  else if ((typeofStr cents ≠ "number" ∧ typeofStr cents ≠ "string") ∨ (jsToNumber cents).isNaNB) then
    .error (.nanArg cents)
  else if !(jsToNumber cents).isFiniteB then .error .infinity
  else
    match cents with
    | .num x => .ok { cents := jsStrToNumber (toFixedJS 0 x), currency := normCurrency currency }
    | _ => .error .typeError

/-- `Money.fromUnit(f, currency)`:
`if ((!f && f !== 0) || isNaN(+f)) throw ConversionError;
return new Money(+((+f * 100).toFixed(0)), currency)`. -/
def Money.fromUnit (f : JSVal) (currency : Option String) : Except MoneyErr Money :=
  if (jsFalsy f && !jsStrictEqZero f) || (jsToNumber f).isNaNB then .error (.conversion f)
  else Money.construct (.num (jsStrToNumber (toFixedJS 0 ((jsToNumber f).mul (.fin (jqZ 100)))))) currency

/-- An argument to a binary `Money` operation: either an actual `Money`
instance or any other JS value (rejected by `validateMoneyInstance`). -/
inductive MoneyArg where
  | inst (m : Money)
  | val (v : JSVal)

def moneyArgFalsy : MoneyArg → Bool
  | .inst _ => false
  | .val v => jsFalsy v

/-- `plus`: missing-argument check, instance check, currency check, then
`new Money(this.cents + m.cents, this.currency)`. -/
def Money.plus (self : Money) (arg : MoneyArg) : Except MoneyErr Money :=
  if moneyArgFalsy arg then .error .missingArg
  else
    match arg with
    | .val v => .error (.invalidType (typeofStr v))
    | .inst m =>
        if self.currency ≠ m.currency then .error (.currencyMismatch self.currency m.currency)
        else Money.construct (.num (self.cents.add m.cents)) (some self.currency)

/-- `minus`: like `plus` with subtraction. -/
def Money.minus (self : Money) (arg : MoneyArg) : Except MoneyErr Money :=
  if moneyArgFalsy arg then .error .missingArg
  else
    match arg with
    | .val v => .error (.invalidType (typeofStr v))
    | .inst m =>
        if self.currency ≠ m.currency then .error (.currencyMismatch self.currency m.currency)
        else Money.construct (.num (self.cents.sub m.cents)) (some self.currency)

/-- `getSubunit()`: the raw `cents` number. -/
def Money.getSubunit (self : Money) : JSNum := self.cents

/-- `getUnit()`: `Number((this.cents / 100).toFixed(2))`. -/
def Money.getUnit (self : Money) : JSNum :=
  jsStrToNumber (toFixedJS 2 (self.cents.div (.fin (jqZ 100))))

/-- `getCurrency()`. -/
def Money.getCurrency (self : Money) : String := self.currency

/-- `eq`: `this.getUnit() === m.getUnit() && this.currency === m.currency`. -/
def Money.eqB (self m : Money) : Bool :=
  (self.getUnit.strictEqB m.getUnit) && (self.currency == m.currency)

/-- One iteration of the `portions.forEach` loop in `split`: state is
`(portionsSum, available, results)`; a `new Money(...)` throw propagates. -/
def splitStep (self : Money) (st : JQ × JSNum × List Money) (portion : JQ) :
    Except MoneyErr (JQ × JSNum × List Money) :=
  let psum := st.1
  let avail := st.2.1
  let res := st.2.2
  let r := jsStrToNumber (toFixedJS 0 ((self.cents.mul (.fin portion)).div (.fin (jqZ 100))))
  if r.gtB avail then do
    let m ← Money.construct (.num avail) (some self.currency)
    pure (psum.add portion, avail, res ++ [m])
  else do
    let m ← Money.construct (.num r) (some self.currency)
    pure (psum.add portion, avail.sub r, res ++ [m])

/-- `split(portions)`: missing/shape check, the `forEach` allocation loop,
then the (post-loop) exact `portionsSum !== 100` check. `none` models a
missing/`null` argument; portions are modelled as finite numbers. -/
def Money.split (self : Money) (portions : Option (List JQ)) : Except MoneyErr (List Money) :=
  match portions with
  | none => .error .missingArg
  | some ps =>
      if ps.isEmpty then .error .missingArg
      else do
        let fin ← ps.foldlM (splitStep self) (jqZ 0, self.cents, [])
        if !((fin.1).beq (jqZ 100)) then throw (.portionsSum ps)
        else pure fin.2.2

/-! ## The `Odds` class (`odds.ts`) -/

/-- The errors thrown by `Odds` (`this.ERRORS`), plus the native TypeError
raised by `price.toString()` on `null`/`undefined`. -/
inductive OddsErr where
  | unknownFormat (s : String)
  | invalidPrice (s : String)
  | invalidFraction (s : String)
  | invalidAmerican (s : String)
  | nanErr (s : String)
  | negative
  | typeError
deriving DecidableEq

/-- The three readonly fields. `f` is an `Option` because `simplifyFraction`
can return JS `null` (modelled as `none`). -/
structure Odds where
  d : String
  f : Option String
  a : String
deriving DecidableEq

/-- `validateD`: price must be a string or number whose coercion is a
finite number strictly greater than 0. -/
def validateDNum (n : JSNum) : Except OddsErr Unit :=
  if n.isNaNB || !n.isFiniteB then .error (.nanErr (numToString n))
  else if n.leB (.fin (jqZ 0)) then .error .negative
  else .ok ()

def validateD (p : JSVal) : Except OddsErr Unit :=
  match p with
  | .num _ => validateDNum (jsToNumber p)
  | .str _ => validateDNum (jsToNumber p)
  | _ => .error (.invalidPrice (jsTemplate p))

/-- `validateF`: a string that splits on `/` into exactly two numeric parts.
(The constructor always passes a string, so the `invalidPrice` branch is
unreachable from there.) -/
def validateF (p : JSVal) : Except OddsErr Unit :=
  match p with
  | .str s =>
      let parts := splitOnChar '/' s
      if parts.length ≠ 2 || (jsStrToNumber (parts.getD 0 "")).isNaNB
          || (jsStrToNumber (parts.getD 1 "")).isNaNB then
        .error (.invalidFraction s)
      else .ok ()
  | _ => .error (.invalidPrice (jsTemplate p))

/-- `validateA`: a string of length ≥ 2 starting with `+`/`-` whose
remainder is numeric. -/
def validateA (p : JSVal) : Except OddsErr Unit :=
  match p with
  | .str s =>
      if s.length < 2 then .error (.invalidPrice s)
      else if !((s.data.getD 0 ' ') = '-' || (s.data.getD 0 ' ') = '+')
          || (jsStrToNumber ⟨s.data.drop 1⟩).isNaNB then
        .error (.invalidAmerican s)
      else .ok ()
  | _ => .error (.invalidPrice (jsTemplate p))

/-- `% ` on two JS numbers (remainder with the dividend's sign) — only what
the recursive GCD needs. -/
def jsMod : JSNum → JSNum → JSNum
  | .nan, _ => .nan
  | _, .nan => .nan
  | .inf, _ => .nan
  | .negInf, _ => .nan
  | .fin x, .inf => .fin x
  | .fin x, .negInf => .fin x
  | .fin x, .fin y =>
      if y.isZero then .nan
      else .fin (x.sub (y.mul (jqZ (Int.tdiv (x.div y).n (x.div y).d))))

def jsTruthyNum (x : JSNum) : Bool := !x.falsy

/-- `findGreatestCommonDen(a, b) = b ? findGreatestCommonDen(b, a % b) : a`,
fuel-driven (the fuel below is a conservative bound on the number of
Euclidean steps for commensurable finite inputs; non-finite inputs reach
`NaN`, which is falsy, within two steps). -/
def findGCDAux : ℕ → JSNum → JSNum → JSNum
  | 0, a, _ => a
  | fuel + 1, a, b => if jsTruthyNum b then findGCDAux fuel b (jsMod a b) else a

def gcdFuel : JSNum → JSNum → ℕ
  | .fin x, .fin y => ((|y.n| * x.d + |x.n| * y.d).toNat + 2)
  | _, _ => 2

def findGCD (a b : JSNum) : JSNum := findGCDAux (gcdFuel a b) a b

/-- `simplifyFraction(num, den)`: returns `null` (`none`) for falsy/NaN
inputs, else divides both by the recursive GCD and prints `num/den`. -/
def simplifyFraction (num den : JSNum) : Option String :=
  if !jsTruthyNum den || num.isNaNB || den.isNaNB then none
  else
    let g := findGCD num den
    some (numToString (num.div g) ++ "/" ++ numToString (den.div g))

/-- `dToF(p)`: `n = +p; dec = Number(n.toFixed(2));
num = Math.round(dec*100) - 100; den = 100; simplify`. -/
def dToF (p : String) : Option String :=
  let n := jsStrToNumber p
  let dec := jsStrToNumber (toFixedJS 2 n)
  simplifyFraction ((mathRound (dec.mul (.fin (jqZ 100)))).sub (.fin (jqZ 100))) (.fin (jqZ 100))

/-- `dToA(p)`: `n = +p; n === 1 ? "-" : n < 2 ?
Math.round(-100/(n-1)).toString() : "+" + Math.round((n-1)*100)`. -/
def dToA (p : String) : String :=
  let n := jsStrToNumber p
  if n.strictEqB (.fin (jqZ 1)) then "-"
  else if n.ltB (.fin (jqZ 2)) then
    numToString (mathRound ((JSNum.fin (jqZ (-100))).div (n.sub (.fin (jqZ 1)))))
  else "+" ++ numToString (mathRound ((n.sub (.fin (jqZ 1))).mul (.fin (jqZ 100))))

/-- `fToD(p)`: split on `/`, `(num/den + 1).toFixed(2)`; a missing part
coerces from `undefined` to NaN. -/
def fToD (p : String) : String :=
  let parts := splitOnChar '/' p
  let num := (parts.get? 0).elim JSNum.nan jsStrToNumber
  let den := (parts.get? 1).elim JSNum.nan jsStrToNumber
  toFixedJS 2 ((num.div den).add (.fin (jqZ 1)))

/-- `aToD(p)`: `pos = p[0] === '+'; n = +p.slice(1);
(pos ? 1 + n/100 : 1 - 100/(-n)).toFixed(2)`. -/
def aToD (p : String) : String :=
  let pos := p.data.getD 0 ' ' = '+'
  let n := jsStrToNumber ⟨p.data.drop 1⟩
  toFixedJS 2
    (if pos then (JSNum.fin (jqZ 1)).add (n.div (.fin (jqZ 100)))
     else (JSNum.fin (jqZ 1)).sub ((JSNum.fin (jqZ 100)).div n.neg))

/-- The `format === 'd'` constructor branch. -/
def dBuild (price : JSVal) : Except OddsErr Odds := do
  let _ ← validateD price
  pure { d := toFixedJS 2 (jsToNumber price),
         f := dToF (toFixedJS 3 (jsToNumber price)),
         a := dToA (toFixedJS 3 (jsToNumber price)) }

/-- The `format === 'f'` constructor branch (`price.toString()` first). -/
def fBuild (price : JSVal) : Except OddsErr Odds :=
  match jsToStringE price with
  | none => .error .typeError
  | some ts => do
      let _ ← validateF (.str ts)
      pure { f := some ts, d := fToD ts, a := dToA (fToD ts) }

/-- The `format === 'a'` constructor branch (`price.toString()` first). -/
def aBuild (price : JSVal) : Except OddsErr Odds :=
  match jsToStringE price with
  | none => .error .typeError
  | some ts => do
      let _ ← validateA (.str ts)
      pure { a := ts, d := aToD ts,
             f := dToF (toFixedJS 3 (jsStrToNumber (aToD ts))) }

/-- `new Odds(price, format)`: dispatch on the lowercased first letter of
the format (falsy format defaults to decimal). -/
def Odds.make (price : JSVal) (format : Option String) : Except OddsErr Odds :=
  if format = none ∨ format = some "" then dBuild price
  else
    let fs := format.getD ""
    let c0 := (fs.data.map lowChar).head?
    if c0 = some 'd' then dBuild price
    else if c0 = some 'f' then fBuild price
    else if c0 = some 'a' then aBuild price
    else .error (.unknownFormat fs)

/-! ## Basic semantic lemmas for `JQ` and `JSNum` -/

instance {ε α : Type} [DecidableEq ε] [DecidableEq α] : DecidableEq (Except ε α) := fun a b =>
  match a, b with
  | .ok x, .ok y => if h : x = y then .isTrue (by rw [h]) else .isFalse (by simp [h])
  | .error x, .error y => if h : x = y then .isTrue (by rw [h]) else .isFalse (by simp [h])
  | .ok _, .error _ => .isFalse (by simp)
  | .error _, .ok _ => .isFalse (by simp)

lemma JQ.ext' {a b : JQ} (hn : a.n = b.n) (hd : a.d = b.d) : a = b := by
  cases a; cases b; cases hn; cases hd; rfl

lemma JQ.dQ_pos (x : JQ) : (0 : ℚ) < (x.d : ℚ) := by exact_mod_cast x.dpos

lemma JQ.dQ_ne (x : JQ) : (x.d : ℚ) ≠ 0 := ne_of_gt x.dQ_pos

lemma JQ.val_jqZ (z : ℤ) : (jqZ z).val = (z : ℚ) := by
  simp [jqZ, JQ.val]

lemma JQ.val_jqD (n : ℤ) (k : ℕ) : (jqD n k).val = (n : ℚ) / 10 ^ k := by
  simp [jqD, JQ.val]

lemma JQ.val_add (x y : JQ) : (x.add y).val = x.val + y.val := by
  unfold JQ.add JQ.val
  have hx := x.dQ_ne
  have hy := y.dQ_ne
  push_cast
  field_simp

lemma JQ.val_neg (x : JQ) : x.neg.val = -x.val := by
  unfold JQ.neg JQ.val
  push_cast
  ring

lemma JQ.val_sub (x y : JQ) : (x.sub y).val = x.val - y.val := by
  unfold JQ.sub
  rw [JQ.val_add, JQ.val_neg]
  ring

lemma JQ.val_mul (x y : JQ) : (x.mul y).val = x.val * y.val := by
  unfold JQ.mul JQ.val
  have hx := x.dQ_ne
  have hy := y.dQ_ne
  push_cast
  field_simp

lemma JQ.val_abs (x : JQ) : x.abs.val = |x.val| := by
  unfold JQ.abs JQ.val
  rw [abs_div, abs_of_pos x.dQ_pos]
  push_cast
  ring

lemma JQ.val_div (x y : JQ) (hy : y.n ≠ 0) : (x.div y).val = x.val / y.val := by
  have hx := x.dQ_ne
  have hyd := y.dQ_ne
  have hyn : (y.n : ℚ) ≠ 0 := by exact_mod_cast hy
  unfold JQ.div
  split
  · next h =>
      unfold JQ.val
      have h1 : (x.d : ℚ) * y.n ≠ 0 := by
        have : (0 : ℚ) < (x.d : ℚ) * (y.n : ℚ) := by exact_mod_cast h
        exact ne_of_gt this
      push_cast
      push_cast at h1
      field_simp
  · next h =>
      split
      · next h' =>
          unfold JQ.val
          have h1 : (x.d : ℚ) * y.n ≠ 0 := by
            have : ((x.d : ℚ) * (y.n : ℚ)) < 0 := by exact_mod_cast h'
            exact ne_of_lt this
          push_cast
          push_cast at h1
          field_simp
      · next h' =>
          exfalso
          have hd := x.dpos
          rcases lt_trichotomy y.n 0 with hn | hn | hn
          · exact h' (mul_neg_of_pos_of_neg hd hn)
          · exact hy hn
          · exact h (mul_pos hd hn)

lemma JQ.beq_iff (x y : JQ) : x.beq y = true ↔ x.val = y.val := by
  unfold JQ.beq JQ.val
  rw [div_eq_div_iff x.dQ_ne y.dQ_ne]
  rw [beq_iff_eq]
  constructor
  · intro h
    exact_mod_cast congrArg (fun z : ℤ => (z : ℚ)) h
  · intro h
    exact_mod_cast h

lemma JQ.ltB_iff (x y : JQ) : x.ltB y = true ↔ x.val < y.val := by
  unfold JQ.ltB JQ.val
  rw [div_lt_div_iff₀ x.dQ_pos y.dQ_pos]
  rw [decide_eq_true_eq]
  constructor
  · intro h
    exact_mod_cast h
  · intro h
    exact_mod_cast h

lemma JQ.leB_iff (x y : JQ) : x.leB y = true ↔ x.val ≤ y.val := by
  unfold JQ.leB JQ.val
  rw [div_le_div_iff₀ x.dQ_pos y.dQ_pos]
  rw [decide_eq_true_eq]
  constructor
  · intro h
    exact_mod_cast h
  · intro h
    exact_mod_cast h

lemma JQ.isNeg_iff (x : JQ) : x.isNeg = true ↔ x.val < 0 := by
  unfold JQ.isNeg JQ.val
  rw [decide_eq_true_eq, div_neg_iff]
  constructor
  · intro h
    right
    exact ⟨by exact_mod_cast h, x.dQ_pos⟩
  · rintro (⟨_, h⟩ | ⟨h, _⟩)
    · exact absurd x.dQ_pos (not_lt.mpr h.le)
    · exact_mod_cast h

lemma JQ.isZero_iff (x : JQ) : x.isZero = true ↔ x.val = 0 := by
  unfold JQ.isZero JQ.val
  rw [beq_iff_eq, div_eq_zero_iff]
  constructor
  · intro h
    left
    exact_mod_cast h
  · rintro (h | h)
    · exact_mod_cast h
    · exact absurd h x.dQ_ne

lemma int_ediv_eq_floor (a b : ℤ) (hb : 0 < b) : a / b = ⌊(a : ℚ) / (b : ℚ)⌋ := by
  obtain ⟨m, rfl⟩ : ∃ m : ℕ, b = (m : ℤ) := ⟨b.toNat, (Int.toNat_of_nonneg hb.le).symm⟩
  exact_mod_cast (Rat.floor_intCast_div_natCast a m).symm

lemma JQ.floorZ_eq (x : JQ) : x.floorZ = ⌊x.val⌋ := by
  unfold JQ.floorZ JQ.val
  exact int_ediv_eq_floor x.n x.d x.dpos

/-! ## Digit strings: printing/parsing facts -/

lemma digitChar_toNat (n : ℕ) : (digitChar n).toNat = n % 10 + 48 := by
  have h : n % 10 < 10 := Nat.mod_lt _ (by norm_num)
  unfold digitChar
  generalize hm : n % 10 = m at h ⊢
  interval_cases m <;> decide

lemma isDigitCh_digitChar (n : ℕ) : isDigitCh (digitChar n) = true := by
  have h : n % 10 < 10 := Nat.mod_lt _ (by norm_num)
  simp [isDigitCh, digitChar_toNat]
  omega

lemma digitToVal_digitChar (n : ℕ) : digitToVal (digitChar n) = n % 10 := by
  simp only [digitToVal, digitChar_toNat]
  omega

lemma natDigitsAux_spec (fuel : ℕ) : ∀ n : ℕ, n < fuel →
    (natDigitsAux fuel n).all isDigitCh = true ∧
    natDigitsAux fuel n ≠ [] ∧
    (∀ a : ℕ, (natDigitsAux fuel n).foldl digitStep a
        = a * 10 ^ (natDigitsAux fuel n).length + n) ∧
    (∀ k, 1 ≤ k → n < 10 ^ k → (natDigitsAux fuel n).length ≤ k) := by
  induction fuel with
  | zero => intro n hn; omega
  | succ f ih =>
      intro n hn
      by_cases h10 : n < 10
      · simp only [natDigitsAux, if_pos h10]
        refine ⟨by simp [isDigitCh_digitChar], by simp, ?_, ?_⟩
        · intro a
          simp [digitStep, digitToVal_digitChar, Nat.mod_eq_of_lt h10]
        · intro k hk _
          simpa using hk
      · have hn10 : n / 10 < f := by
          have h1 : n / 10 < n := Nat.div_lt_self (by omega) (by omega)
          omega
        obtain ⟨hall, hne, hfold, hlen⟩ := ih (n / 10) hn10
        simp only [natDigitsAux, if_neg h10]
        refine ⟨?_, by simp, ?_, ?_⟩
        · rw [List.all_append]
          simp [hall, isDigitCh_digitChar]
        · intro a
          rw [List.foldl_append, hfold a, List.length_append]
          simp only [List.length_singleton, List.foldl_cons, List.foldl_nil]
          rw [digitStep, digitToVal_digitChar]
          rw [pow_succ]
          have : n % 10 + 10 * (n / 10) = n := Nat.mod_add_div n 10
          ring_nf
          omega
        · intro k hk hnk
          rw [List.length_append]
          simp only [List.length_singleton]
          have hk2 : 2 ≤ k := by
            by_contra hcon
            have : k = 1 := by omega
            subst this
            simp at hnk
            omega
          have : n / 10 < 10 ^ (k - 1) := by
            have h1 : n < 10 * 10 ^ (k - 1) := by
              have : 10 * 10 ^ (k - 1) = 10 ^ k := by
                rw [← pow_succ']
                congr 1
                omega
              omega
            omega
          have := hlen (k - 1) (by omega) this
          omega

lemma natDigits_all (n : ℕ) : (natDigits n).all isDigitCh = true :=
  (natDigitsAux_spec (n + 1) n (by omega)).1

lemma natDigits_ne_nil (n : ℕ) : natDigits n ≠ [] :=
  (natDigitsAux_spec (n + 1) n (by omega)).2.1

lemma foldDigits_natDigits (n : ℕ) : foldDigits (natDigits n) = n := by
  have := (natDigitsAux_spec (n + 1) n (by omega)).2.2.1 0
  simpa [foldDigits, natDigits] using this

lemma natDigits_length_le (n k : ℕ) (hk : 1 ≤ k) (h : n < 10 ^ k) :
    (natDigits n).length ≤ k :=
  (natDigitsAux_spec (n + 1) n (by omega)).2.2.2 k hk h

lemma foldl_digitStep_replicate_zero (m : ℕ) : ∀ a : ℕ,
    (List.replicate m '0').foldl digitStep a = a * 10 ^ m := by
  induction m with
  | zero => intro a; simp
  | succ m ih =>
      intro a
      rw [List.replicate_succ, List.foldl_cons, ih]
      have h0 : digitStep a '0' = a * 10 := by
        simp [digitStep, digitToVal]
      rw [h0, pow_succ]
      ring

lemma padDigits_all (k n : ℕ) : (padDigits k n).all isDigitCh = true := by
  rw [padDigits, List.all_append]
  refine (Bool.and_eq_true _ _).mpr ⟨?_, natDigits_all n⟩
  simp only [List.all_eq_true]
  intro c hc
  rw [List.eq_of_mem_replicate hc]
  decide

lemma padDigits_length (k n : ℕ) (hk : 1 ≤ k) (h : n < 10 ^ k) :
    (padDigits k n).length = k := by
  rw [padDigits, List.length_append, List.length_replicate]
  have := natDigits_length_le n k hk h
  omega

lemma foldDigits_padDigits (k n : ℕ) : foldDigits (padDigits k n) = n := by
  rw [padDigits, foldDigits, List.foldl_append, foldl_digitStep_replicate_zero]
  have := (natDigitsAux_spec (n + 1) n (by omega)).2.2.1 (0 * 10 ^ (k - (natDigits n).length))
  simpa [natDigits] using this

lemma takeWhile_app {p : Char → Bool} {x : Char} (hx : p x = false) :
    ∀ l : List Char, l.all p = true → ∀ r, (l ++ x :: r).takeWhile p = l := by
  intro l
  induction l with
  | nil =>
      intro _ r
      simp [List.takeWhile, hx]
  | cons c cs ih =>
      intro hall r
      rw [List.all_cons, Bool.and_eq_true] at hall
      simp [List.takeWhile, hall.1, ih hall.2 r]

lemma dropWhile_app {p : Char → Bool} {x : Char} (hx : p x = false) :
    ∀ l : List Char, l.all p = true → ∀ r, (l ++ x :: r).dropWhile p = x :: r := by
  intro l
  induction l with
  | nil =>
      intro _ r
      simp [List.dropWhile, hx]
  | cons c cs ih =>
      intro hall r
      rw [List.all_cons, Bool.and_eq_true] at hall
      simp [List.dropWhile, hall.1, ih hall.2 r]

lemma takeWhile_all {p : Char → Bool} : ∀ l : List Char, l.all p = true → l.takeWhile p = l := by
  intro l
  induction l with
  | nil => intro _; rfl
  | cons c cs ih =>
      intro hall
      rw [List.all_cons, Bool.and_eq_true] at hall
      simp [List.takeWhile, hall.1, ih hall.2]

lemma dropWhile_all {p : Char → Bool} : ∀ l : List Char, l.all p = true → l.dropWhile p = [] := by
  intro l
  induction l with
  | nil => intro _; rfl
  | cons c cs ih =>
      intro hall
      rw [List.all_cons, Bool.and_eq_true] at hall
      simp [List.dropWhile, hall.1, ih hall.2]

lemma dropWhile_head_false {p : Char → Bool} :
    ∀ l : List Char, (∀ c ∈ l, p c = false) → l.dropWhile p = l := by
  intro l h
  cases l with
  | nil => rfl
  | cons c cs => simp [List.dropWhile, h c (by simp)]

lemma trimChars_noWs {l : List Char} (h : ∀ c ∈ l, isWsChar c = false) : trimChars l = l := by
  rw [trimChars, dropWhile_head_false l h, dropWhile_head_false l.reverse
    (fun c hc => h c (List.mem_reverse.mp hc)), List.reverse_reverse]

lemma isWs_false_of_digit {c : Char} (h : isDigitCh c = true) : isWsChar c = false := by
  simp only [isDigitCh, Bool.and_eq_true, decide_eq_true_eq] at h
  simp only [isWsChar]
  simp only [Bool.or_eq_false_iff, decide_eq_false_iff_not]
  omega

/-! ## The `toFixed` / string→number round trip -/

lemma string_data_mk (l : List Char) : (⟨l⟩ : String).data = l := rfl

lemma parseDecCore_natDigits (m : ℕ) : parseDecCore (natDigits m) = some (jqZ m) := by
  unfold parseDecCore
  rw [takeWhile_all _ (natDigits_all m), dropWhile_all _ (natDigits_all m)]
  dsimp only
  rw [if_pos rfl]
  simp only [List.isEmpty_eq_true]
  rw [if_neg (natDigits_ne_nil m), foldDigits_natDigits]

lemma parseDecCore_scaled (k m : ℕ) (hk : 1 ≤ k) :
    parseDecCore (scaledDigits k m) = some (jqD m k) := by
  unfold scaledDigits
  rw [if_neg (by omega)]
  unfold parseDecCore
  have hdot : isDigitCh '.' = false := by decide
  rw [takeWhile_app hdot _ (natDigits_all _), dropWhile_app hdot _ (natDigits_all _)]
  have hmod : m % 10 ^ k < 10 ^ k := Nat.mod_lt _ (by positivity)
  have hplen : (padDigits k (m % 10 ^ k)).length = k := padDigits_length _ _ hk hmod
  dsimp only
  rw [if_neg (by simp), if_pos (by rfl)]
  simp only [List.drop_succ_cons, List.drop_zero]
  rw [if_pos (by simp [padDigits_all, List.isEmpty_eq_true, natDigits_ne_nil])]
  rw [hplen, foldDigits_natDigits, foldDigits_padDigits]
  congr 1
  unfold jqD
  refine JQ.ext' ?_ rfl
  show (((m / 10 ^ k : ℕ) : ℤ) * 10 ^ k + ((m % 10 ^ k : ℕ) : ℤ)) = ((m : ℕ) : ℤ)
  have hNat : m / 10 ^ k * 10 ^ k + m % 10 ^ k = m := Nat.div_add_mod' m (10 ^ k)
  conv_rhs => rw [← hNat]
  push_cast
  ring

lemma scaled_ne_nil (k m : ℕ) : scaledDigits k m ≠ [] := by
  unfold scaledDigits
  split
  · exact natDigits_ne_nil m
  · simp [natDigits_ne_nil]

lemma scaled_head_digit (k m : ℕ) {c : Char} (h : (scaledDigits k m).head? = some c) :
    isDigitCh c = true := by
  have key : ∀ (l : List Char), l.all isDigitCh = true → l ≠ [] →
      ∀ r, (l ++ r).head? = some c → isDigitCh c = true := by
    intro l hall hne r hh
    cases l with
    | nil => exact absurd rfl hne
    | cons a as =>
        simp only [List.cons_append, List.head?_cons, Option.some.injEq] at hh
        rw [List.all_cons, Bool.and_eq_true] at hall
        rw [← hh]
        exact hall.1
  unfold scaledDigits at h
  by_cases hk : k = 0
  · rw [if_pos hk] at h
    have := key (natDigits m) (natDigits_all m) (natDigits_ne_nil m) [] (by simpa using h)
    exact this
  · rw [if_neg hk] at h
    exact key _ (natDigits_all _) (natDigits_ne_nil _) _ h

lemma scaled_noWs (k m : ℕ) : ∀ c ∈ scaledDigits k m, isWsChar c = false := by
  intro c hc
  unfold scaledDigits at hc
  by_cases hk : k = 0
  · rw [if_pos hk] at hc
    exact isWs_false_of_digit (by
      have := natDigits_all m
      rw [List.all_eq_true] at this
      exact this c hc)
  · rw [if_neg hk] at hc
    rw [List.mem_append] at hc
    rcases hc with hc | hc
    · exact isWs_false_of_digit (by
        have := natDigits_all (m / 10 ^ k)
        rw [List.all_eq_true] at this
        exact this c hc)
    · rw [List.mem_cons] at hc
      rcases hc with hc | hc
      · rw [hc]; decide
      · exact isWs_false_of_digit (by
          have := padDigits_all k (m % 10 ^ k)
          rw [List.all_eq_true] at this
          exact this c hc)

lemma scaled_ne_infinity (k m : ℕ) :
    scaledDigits k m ≠ ['I', 'n', 'f', 'i', 'n', 'i', 't', 'y'] := by
  intro h
  have : (scaledDigits k m).head? = some 'I' := by rw [h]; rfl
  have := scaled_head_digit k m this
  simp [isDigitCh] at this

lemma parseMag_scaled (k m : ℕ) (hk : 1 ≤ k) (neg : Bool) :
    parseMag (scaledDigits k m) neg = .fin (if neg then (jqD m k).neg else jqD m k) := by
  unfold parseMag
  rw [if_neg (scaled_ne_infinity k m), parseDecCore_scaled k m hk]

lemma parseMag_scaled_zero (m : ℕ) (neg : Bool) :
    parseMag (scaledDigits 0 m) neg = .fin (if neg then (jqZ m).neg else jqZ m) := by
  unfold parseMag
  rw [if_neg (scaled_ne_infinity 0 m)]
  have : scaledDigits 0 m = natDigits m := by unfold scaledDigits; rw [if_pos rfl]
  rw [this, parseDecCore_natDigits]

/-- `+((x).toFixed(k))` recovers the rounded magnitude over `10^k`, with
the sign re-attached. -/
theorem parse_toFixedFin (k : ℕ) (x : JQ) :
    jsStrToNumber (toFixedFin k x) =
      .fin (jqD (if x.isNeg then -(tfN k x.abs : ℤ) else (tfN k x.abs : ℤ)) k) := by
  have hjq : ∀ m : ℕ, jqD (m : ℤ) k = (if k = 0 then jqZ m else jqD m k) := by
    intro m
    split
    · next hk0 => subst hk0; exact JQ.ext' rfl (by norm_num [jqD, jqZ])
    · rfl
  have hjqneg : ∀ m : ℕ, jqD (-(m : ℤ)) k = (if k = 0 then (jqZ m).neg else (jqD m k).neg) := by
    intro m
    split
    · next hk0 => subst hk0; exact JQ.ext' rfl (by norm_num [jqD, jqZ, JQ.neg])
    · exact JQ.ext' rfl rfl
  set m := tfN k x.abs with hm
  by_cases hneg : x.isNeg
  · -- negative: a leading '-' is printed and parsed back
    have hdata : (toFixedFin k x).data = '-' :: scaledDigits k m := by
      unfold toFixedFin
      rw [string_data_mk, if_pos hneg]
      rfl
    have htrim : trimChars ((toFixedFin k x).data) = '-' :: scaledDigits k m := by
      rw [hdata]
      refine trimChars_noWs ?_
      intro c hc
      rcases List.mem_cons.mp hc with hc | hc
      · rw [hc]; decide
      · exact scaled_noWs k m c hc
    simp only [jsStrToNumber, htrim]
    rw [if_neg (by simp), if_neg (by simp), if_pos (by simp)]
    simp only [List.drop_succ_cons, List.drop_zero]
    rw [if_pos hneg]
    by_cases hk : k = 0
    · subst hk
      rw [parseMag_scaled_zero m true, hjqneg m]
      simp
    · rw [parseMag_scaled k m (by omega) true, hjqneg m]
      rw [if_neg hk]
      simp
  · -- non-negative: the digits are parsed directly
    have hdata : (toFixedFin k x).data = scaledDigits k m := by
      unfold toFixedFin
      rw [string_data_mk, if_neg hneg]
      rfl
    have htrim : trimChars ((toFixedFin k x).data) = scaledDigits k m := by
      rw [hdata]
      exact trimChars_noWs (scaled_noWs k m)
    obtain ⟨c, hc, hcd⟩ : ∃ c, (scaledDigits k m).head? = some c ∧ isDigitCh c = true := by
      cases hsc : scaledDigits k m with
      | nil => exact absurd hsc (scaled_ne_nil k m)
      | cons a as =>
          refine ⟨a, by simp, ?_⟩
          exact scaled_head_digit k m (by simp [hsc])
    have hcplus : c ≠ '+' := by
      intro h; rw [h] at hcd; simp [isDigitCh] at hcd
    have hcminus : c ≠ '-' := by
      intro h; rw [h] at hcd; simp [isDigitCh] at hcd
    simp only [jsStrToNumber, htrim]
    rw [if_neg (scaled_ne_nil k m), if_neg (by rw [hc]; simp [hcplus]),
      if_neg (by rw [hc]; simp [hcminus])]
    rw [if_neg hneg]
    by_cases hk : k = 0
    · subst hk
      rw [parseMag_scaled_zero m false, hjq m]
      simp
    · rw [parseMag_scaled k m (by omega) false, hjq m]
      rw [if_neg hk]
      simp

/-! ## Semantic characterisation of the `toFixed` rounding -/

/-- The signed integer `+((x).toFixed(k)) * 10^k`. -/
def tfVal (k : ℕ) (x : JQ) : ℤ := if x.isNeg then -(tfN k x.abs : ℤ) else (tfN k x.abs : ℤ)

lemma parse_toFixed_fin (k : ℕ) (x : JQ) :
    jsStrToNumber (toFixedJS k (.fin x)) = .fin (jqD (tfVal k x) k) := by
  show jsStrToNumber (toFixedFin k x) = _
  rw [parse_toFixedFin]
  unfold tfVal
  split <;> rfl

lemma tfDiv_floor (k : ℕ) (x : JQ) :
    (2 * x.n * 10 ^ k + x.d) / (2 * x.d) = ⌊x.val * 10 ^ k + 1 / 2⌋ := by
  rw [int_ediv_eq_floor _ _ (by have := x.dpos; omega)]
  congr 1
  have hd := x.dQ_ne
  unfold JQ.val
  push_cast
  field_simp
  ring

lemma tfN_cast (k : ℕ) (x : JQ) (hx : 0 ≤ x.val) :
    (tfN k x : ℤ) = ⌊x.val * 10 ^ k + 1 / 2⌋ := by
  unfold tfN
  rw [tfDiv_floor]
  rw [Int.toNat_of_nonneg]
  apply Int.floor_nonneg.mpr
  positivity

lemma abs_val_nonneg (x : JQ) : 0 ≤ x.abs.val := by
  rw [JQ.val_abs]
  positivity

lemma tfN_abs_cast (k : ℕ) (x : JQ) :
    (tfN k x.abs : ℤ) = ⌊|x.val| * 10 ^ k + 1 / 2⌋ := by
  rw [tfN_cast k x.abs (abs_val_nonneg x), JQ.val_abs]

lemma isNeg_eq_decide (x : JQ) : x.isNeg = decide (x.val < 0) := by
  by_cases h : x.isNeg = true
  · rw [h, decide_eq_true ((JQ.isNeg_iff x).mp h)]
  · have hv : ¬(x.val < 0) := fun hc => h ((JQ.isNeg_iff x).mpr hc)
    rw [Bool.not_eq_true] at h
    rw [h, decide_eq_false hv]

/-! ## String-utility lemmas (trim / toUpperCase) -/

lemma upChar_toNat (c : Char) :
    (upChar c).toNat = if 97 ≤ c.toNat ∧ c.toNat ≤ 122 then c.toNat - 32 else c.toNat := by
  unfold upChar
  split
  · next h =>
      generalize hm : c.toNat - 32 = m
      have hm1 : 65 ≤ m := by omega
      have hm2 : m ≤ 90 := by omega
      interval_cases m <;> decide
  · rfl

lemma isWs_upChar (c : Char) : isWsChar (upChar c) = isWsChar c := by
  by_cases h : 97 ≤ c.toNat ∧ c.toNat ≤ 122
  · have hl : isWsChar (upChar c) = false := by
      simp only [isWsChar, upChar_toNat, if_pos h]
      simp only [Bool.or_eq_false_iff, decide_eq_false_iff_not]
      omega
    have hr : isWsChar c = false := by
      simp only [isWsChar]
      simp only [Bool.or_eq_false_iff, decide_eq_false_iff_not]
      omega
    rw [hl, hr]
  · unfold upChar
    rw [if_neg h]

lemma upChar_upChar (c : Char) : upChar (upChar c) = upChar c := by
  by_cases h : 97 ≤ c.toNat ∧ c.toNat ≤ 122
  · have ht : (upChar c).toNat = c.toNat - 32 := by rw [upChar_toNat, if_pos h]
    have hcond : ¬(97 ≤ (upChar c).toNat ∧ (upChar c).toNat ≤ 122) := by omega
    show (if 97 ≤ (upChar c).toNat ∧ (upChar c).toNat ≤ 122 then
        Char.ofNat ((upChar c).toNat - 32) else upChar c) = upChar c
    rw [if_neg hcond]
  · have hc : upChar c = c := by unfold upChar; rw [if_neg h]
    simp only [hc]

lemma dropWhile_ne_head {p : Char → Bool} :
    ∀ {l : List Char} {c : Char}, (l.dropWhile p).head? = some c → p c = false := by
  intro l
  induction l with
  | nil => intro c h; simp [List.dropWhile] at h
  | cons a as ih =>
      intro c h
      rw [List.dropWhile_cons] at h
      by_cases hpa : p a = true
      · rw [if_pos hpa] at h
        exact ih h
      · rw [if_neg hpa] at h
        simp only [List.head?_cons, Option.some.injEq] at h
        rw [← h]
        exact Bool.not_eq_true _ |>.mp hpa

lemma dropWhile_getLast {p : Char → Bool} :
    ∀ {l : List Char}, l.dropWhile p ≠ [] → (l.dropWhile p).getLast? = l.getLast? := by
  intro l
  induction l with
  | nil => intro h; simp [List.dropWhile] at h
  | cons a as ih =>
      intro h
      rw [List.dropWhile_cons] at h ⊢
      by_cases hpa : p a = true
      · rw [if_pos hpa] at h ⊢
        rw [ih h]
        have hne : as ≠ [] := by
          intro hc
          rw [hc] at h
          simp [List.dropWhile] at h
        cases as with
        | nil => exact absurd rfl hne
        | cons b bs => rw [List.getLast?_cons_cons]
      · rw [if_neg hpa]

lemma trimChars_head {l : List Char} {c : Char}
    (h : (trimChars l).head? = some c) : isWsChar c = false := by
  unfold trimChars at h
  rw [List.head?_reverse] at h
  have hne : (List.dropWhile isWsChar (List.dropWhile isWsChar l).reverse) ≠ [] := by
    intro hc
    rw [hc] at h
    simp at h
  rw [dropWhile_getLast hne, List.getLast?_reverse] at h
  exact dropWhile_ne_head h

lemma trimChars_getLast {l : List Char} {c : Char}
    (h : (trimChars l).getLast? = some c) : isWsChar c = false := by
  unfold trimChars at h
  rw [List.getLast?_reverse] at h
  exact dropWhile_ne_head h

lemma trimChars_of_ends {l : List Char}
    (h1 : ∀ c, l.head? = some c → isWsChar c = false)
    (h2 : ∀ c, l.getLast? = some c → isWsChar c = false) : trimChars l = l := by
  unfold trimChars
  have hd : l.dropWhile isWsChar = l := by
    cases l with
    | nil => rfl
    | cons a as =>
        have ha : isWsChar a = false := h1 a rfl
        rw [List.dropWhile_cons, ha]
        simp
  rw [hd]
  have hd2 : l.reverse.dropWhile isWsChar = l.reverse := by
    cases hl : l.reverse with
    | nil => rfl
    | cons a as =>
        have hga : l.getLast? = some a := by
          rw [← List.head?_reverse, hl]
          rfl
        have ha : isWsChar a = false := h2 a hga
        rw [List.dropWhile_cons, ha]
        simp
  rw [hd2, List.reverse_reverse]

lemma trim_map_up (l : List Char) :
    trimChars (List.map upChar (trimChars l)) = List.map upChar (trimChars l) := by
  apply trimChars_of_ends
  · intro c hc
    rw [List.head?_map] at hc
    cases hh : (trimChars l).head? with
    | none => rw [hh] at hc; simp at hc
    | some c0 =>
        rw [hh] at hc
        simp at hc
        rw [← hc, isWs_upChar]
        exact trimChars_head hh
  · intro c hc
    rw [List.getLast?_map] at hc
    cases hh : (trimChars l).getLast? with
    | none => rw [hh] at hc; simp at hc
    | some c0 =>
        rw [hh] at hc
        simp at hc
        rw [← hc, isWs_upChar]
        exact trimChars_getLast hh

lemma normCurrency_some (s : String) :
    normCurrency (some s) =
      if s ≠ "" ∧ 0 < (jsTrim s).length then jsToUpper (jsTrim s) else DEFAULT_CURRENCY := rfl

lemma normCurrency_stable (c : Option String) :
    normCurrency (some (normCurrency c)) = normCurrency c := by
  have husd : normCurrency (some DEFAULT_CURRENCY) = DEFAULT_CURRENCY := by decide
  cases c with
  | none => exact husd
  | some s =>
      by_cases hg : s ≠ "" ∧ 0 < (jsTrim s).length
      · have hsrc : normCurrency (some s) = jsToUpper (jsTrim s) := by
          rw [normCurrency_some, if_pos hg]
        rw [hsrc]
        have hne : trimChars s.data ≠ [] := by
          intro hc
          have : (jsTrim s).length = 0 := by
            show (⟨trimChars s.data⟩ : String).length = 0
            rw [hc]
            rfl
          omega
        have hdata : (jsToUpper (jsTrim s)).data = List.map upChar (trimChars s.data) := rfl
        have htrim : jsTrim (jsToUpper (jsTrim s)) = jsToUpper (jsTrim s) := by
          show (⟨trimChars (jsToUpper (jsTrim s)).data⟩ : String) = _
          rw [hdata, trim_map_up]
          rfl
        have hlen : 0 < (jsTrim (jsToUpper (jsTrim s))).length := by
          rw [htrim]
          show 0 < (List.map upChar (trimChars s.data)).length
          rw [List.length_map]
          cases hl : trimChars s.data with
          | nil => exact absurd hl hne
          | cons a as => simp
        have hne2 : jsToUpper (jsTrim s) ≠ "" := by
          intro hc
          have : (jsToUpper (jsTrim s)).data = [] := by rw [hc]
          rw [hdata] at this
          rcases List.map_eq_nil_iff.mp this with h
          exact hne h
        rw [normCurrency_some, if_pos ⟨hne2, hlen⟩, htrim]
        show jsToUpper (jsToUpper (jsTrim s)) = jsToUpper (jsTrim s)
        show (⟨List.map upChar (jsToUpper (jsTrim s)).data⟩ : String) = _
        rw [hdata, List.map_map]
        have : upChar ∘ upChar = upChar := funext upChar_upChar
        rw [this]
        rfl
      · have hsrc : normCurrency (some s) = DEFAULT_CURRENCY := by
          rw [normCurrency_some, if_neg hg]
        rw [hsrc, husd]

/-! ## `Money` helper lemmas -/

lemma beq_jqZ_zero (x : JQ) : x.beq (jqZ 0) = x.isZero := by
  simp [JQ.beq, jqZ, JQ.isZero]

/-- The constructor succeeds on every finite number and stores the
`toFixed(0)` rounding of it. -/
lemma construct_fin (x : JQ) (cur : Option String) :
    Money.construct (.num (.fin x)) cur =
      .ok ⟨.fin (jqD (tfVal 0 x) 0), normCurrency cur⟩ := by
  unfold Money.construct
  have c1 : ¬((jsFalsy (.num (.fin x)) && !jsStrictEqZero (.num (.fin x))) = true) := by
    simp only [jsFalsy, jsStrictEqZero, JSNum.falsy, JSNum.strictEqB, beq_jqZ_zero]
    cases hx : x.isZero <;> simp
  rw [if_neg c1]
  have c2 : ¬((typeofStr (.num (.fin x)) ≠ "number" ∧ typeofStr (.num (.fin x)) ≠ "string") ∨
      ((jsToNumber (.num (.fin x))).isNaNB = true)) := by
    simp [typeofStr, jsToNumber, JSNum.isNaNB]
  rw [if_neg c2]
  have c3 : ¬((!(jsToNumber (.num (.fin x))).isFiniteB) = true) := by
    simp [jsToNumber, JSNum.isFiniteB]
  rw [if_neg c3]
  show Except.ok (Money.mk (jsStrToNumber (toFixedJS 0 (.fin x))) (normCurrency cur)) = _
  rw [parse_toFixed_fin]

lemma floor_int_add_half (z : ℤ) : ⌊(z : ℚ) + 1 / 2⌋ = z := by
  rw [add_comm, Int.floor_add_int]
  norm_num

/-- `toFixed(0)` is the identity on integer-valued numbers. -/
lemma tfVal_of_int (x : JQ) (z : ℤ) (h : x.val = (z : ℚ)) : tfVal 0 x = z := by
  unfold tfVal
  have habs : (tfN 0 x.abs : ℤ) = |z| := by
    rw [tfN_abs_cast, h, pow_zero, mul_one]
    rw [show |(z : ℚ)| = ((|z| : ℤ) : ℚ) by push_cast; ring]
    exact floor_int_add_half |z|
  rw [isNeg_eq_decide, h]
  by_cases hz : z < 0
  · rw [decide_eq_true (by exact_mod_cast hz), if_pos rfl, habs, abs_of_neg hz]
    ring
  · rw [decide_eq_false (by exact_mod_cast hz), habs]
    simp only [Bool.false_eq_true, if_false]
    exact abs_of_nonneg (not_lt.mp hz)

lemma jqD_zero_val (z : ℤ) : (jqD z 0).val = (z : ℚ) := by
  rw [JQ.val_jqD]
  norm_num

/-- Constructing from an integer-valued number stores it unchanged. -/
lemma construct_int_val (x : JQ) (z : ℤ) (h : x.val = (z : ℚ)) (cur : Option String) :
    Money.construct (.num (.fin x)) cur = .ok ⟨.fin (jqD z 0), normCurrency cur⟩ := by
  rw [construct_fin, tfVal_of_int x z h]

lemma JSNum.strictEqB_refl_fin (x : JQ) : JSNum.strictEqB (.fin x) (.fin x) = true := by
  simp [JSNum.strictEqB, JQ.beq]

lemma Money.plus_inst (a b : Money) (x y : JQ) (ha : a.cents = .fin x) (hb : b.cents = .fin y)
    (hcur : a.currency = b.currency) :
    a.plus (.inst b) = Money.construct (.num (.fin (x.add y))) (some a.currency) := by
  unfold Money.plus
  rw [if_neg (by simp [moneyArgFalsy])]
  dsimp only
  rw [if_neg (by rw [hcur]; exact fun h => h rfl)]
  rw [ha, hb]
  rfl

lemma Money.minus_inst (a b : Money) (x y : JQ) (ha : a.cents = .fin x) (hb : b.cents = .fin y)
    (hcur : a.currency = b.currency) :
    a.minus (.inst b) = Money.construct (.num (.fin (x.add y.neg))) (some a.currency) := by
  unfold Money.minus
  rw [if_neg (by simp [moneyArgFalsy])]
  dsimp only
  rw [if_neg (by rw [hcur]; exact fun h => h rfl)]
  rw [ha, hb]
  rfl

/-! ## `split` fold lemmas -/

/-- The rounded share `+(((cents * portion) / 100).toFixed(0))` as an integer. -/
def share (c p : JQ) : ℤ := tfVal 0 ((c.mul p).div (jqZ 100))

lemma split_r_eq (self : Money) (c : JQ) (hc : self.cents = .fin c) (p : JQ) :
    jsStrToNumber (toFixedJS 0 ((self.cents.mul (.fin p)).div (.fin (jqZ 100))))
      = .fin (jqD (share c p) 0) := by
  rw [hc]
  show jsStrToNumber (toFixedJS 0 (.fin ((c.mul p).div (jqZ 100)))) = _
  exact parse_toFixed_fin 0 _

lemma share_val (c p : JQ) : ((share c p : ℤ) : ℚ) =
    (if c.val * p.val / 100 < 0 then (-1 : ℚ) else 1) *
      (⌊|c.val * p.val / 100| + 1 / 2⌋ : ℤ) := by
  have hval : ((c.mul p).div (jqZ 100)).val = c.val * p.val / 100 := by
    rw [JQ.val_div _ _ (by norm_num [jqZ]), JQ.val_mul, JQ.val_jqZ]
    norm_num
  unfold share tfVal
  rw [isNeg_eq_decide, hval]
  by_cases hneg : c.val * p.val / 100 < 0
  · rw [decide_eq_true hneg, if_pos rfl, if_pos hneg]
    rw [tfN_abs_cast, hval]
    norm_num
  · rw [decide_eq_false hneg, if_neg hneg]
    simp only [Bool.false_eq_true, if_false]
    rw [tfN_abs_cast, hval]
    norm_num

lemma foldl_add_val (ps : List JQ) : ∀ s0 : JQ,
    (ps.foldl JQ.add s0).val = s0.val + (ps.map JQ.val).sum := by
  induction ps with
  | nil => intro s0; simp
  | cons p ps ih =>
      intro s0
      rw [List.foldl_cons, ih, JQ.val_add]
      simp only [List.map_cons, List.sum_cons]
      ring

/-- Whatever the portions are, the `forEach` loop never throws and the
running `portionsSum` is the fold of the portions. -/
lemma foldlM_split_ok (self : Money) (c : JQ) (hc : self.cents = .fin c) :
    ∀ (ps : List JQ) (s0 a0 : JQ) (res0 : List Money),
      ∃ (aF : JQ) (resF : List Money),
        List.foldlM (splitStep self) ((s0, .fin a0, res0) : JQ × JSNum × List Money) ps
          = .ok (ps.foldl JQ.add s0, .fin aF, resF) := by
  intro ps
  induction ps with
  | nil =>
      intro s0 a0 res0
      exact ⟨a0, res0, rfl⟩
  | cons p ps ih =>
      intro s0 a0 res0
      rw [List.foldlM_cons]
      unfold splitStep
      rw [split_r_eq self c hc p]
      by_cases hgt : (JSNum.fin (jqD (share c p) 0)).gtB (.fin a0) = true
      · rw [if_pos hgt, construct_fin]
        obtain ⟨aF, resF, hfold⟩ := ih (s0.add p) a0
          (res0 ++ [⟨.fin (jqD (tfVal 0 a0) 0), normCurrency (some self.currency)⟩])
        refine ⟨aF, resF, ?_⟩
        rw [List.foldl_cons]
        exact hfold
      · rw [if_neg hgt, construct_fin]
        obtain ⟨aF, resF, hfold⟩ := ih (s0.add p) (a0.sub (jqD (share c p) 0))
          (res0 ++ [⟨.fin (jqD (tfVal 0 (jqD (share c p) 0)) 0), normCurrency (some self.currency)⟩])
        refine ⟨aF, resF, ?_⟩
        rw [List.foldl_cons]
        exact hfold

/-- When every prefix of rounded shares fits into the available balance the
loop never clamps: it allocates exactly the rounded shares, in order. -/
lemma foldlM_split_noclamp (self : Money) (c : JQ) (hc : self.cents = .fin c) :
    ∀ (ps : List JQ) (s0 a0 : JQ) (res0 : List Money),
      (∀ j, ((ps.take j).map (fun p => ((share c p : ℤ) : ℚ))).sum ≤ a0.val) →
      ∃ aF : JQ,
        List.foldlM (splitStep self) ((s0, .fin a0, res0) : JQ × JSNum × List Money) ps
          = .ok (ps.foldl JQ.add s0, .fin aF,
              res0 ++ ps.map (fun p => ⟨.fin (jqD (share c p) 0), normCurrency (some self.currency)⟩)) ∧
        aF.val = a0.val - ((ps.map (fun p => ((share c p : ℤ) : ℚ))).sum) := by
  intro ps
  induction ps with
  | nil =>
      intro s0 a0 res0 _
      exact ⟨a0, by simp; rfl, by simp⟩
  | cons p ps ih =>
      intro s0 a0 res0 hpre
      have hp1 : ((share c p : ℤ) : ℚ) ≤ a0.val := by
        have := hpre 1
        simpa using this
      rw [List.foldlM_cons]
      unfold splitStep
      rw [split_r_eq self c hc p]
      dsimp only
      have hgt : (JSNum.fin (jqD (share c p) 0)).gtB (.fin a0) = false := by
        show JSNum.ltB (.fin a0) (.fin (jqD (share c p) 0)) = false
        show a0.ltB (jqD (share c p) 0) = false
        rw [← Bool.not_eq_true]
        intro hlt
        have := (JQ.ltB_iff _ _).mp hlt
        rw [jqD_zero_val] at this
        exact absurd hp1 (not_le.mpr this)
      rw [hgt]
      simp only [Bool.false_eq_true, if_false]
      rw [construct_int_val (jqD (share c p) 0) (share c p) (jqD_zero_val _)]
      obtain ⟨aF, hfold, hval⟩ := ih (s0.add p) (a0.sub (jqD (share c p) 0))
        (res0 ++ [⟨.fin (jqD (share c p) 0), normCurrency (some self.currency)⟩])
        (by
          intro j
          have := hpre (j + 1)
          rw [List.take_succ_cons, List.map_cons, List.sum_cons] at this
          rw [JQ.val_sub, jqD_zero_val]
          linarith)
      refine ⟨aF, ?_, ?_⟩
      · rw [List.foldl_cons]
        rw [show res0 ++ (p :: ps).map
              (fun p => (⟨.fin (jqD (share c p) 0), normCurrency (some self.currency)⟩ : Money))
            = (res0 ++ [(⟨.fin (jqD (share c p) 0), normCurrency (some self.currency)⟩ : Money)])
              ++ ps.map (fun p => (⟨.fin (jqD (share c p) 0), normCurrency (some self.currency)⟩ : Money)) by
          simp]
        exact hfold
      · rw [hval, JQ.val_sub, jqD_zero_val]
        simp only [List.map_cons, List.sum_cons]
        ring

lemma cast_sum_shares (f : JQ → ℤ) (l : List JQ) :
    (((l.map f).sum : ℤ) : ℚ) = (l.map (fun p => ((f p : ℤ) : ℚ))).sum := by
  induction l with
  | nil => simp
  | cons p ps ih =>
      simp only [List.map_cons, List.sum_cons, Int.cast_add, ih]

/-- `split` with a sum ≠ 100 always reaches the post-loop check and throws. -/
lemma money_split_portions_sum (c : JQ) (cur : String) (ps : List JQ)
    (hne : ps ≠ []) (hsum : (ps.map JQ.val).sum ≠ 100) :
    Money.split ⟨.fin c, cur⟩ (some ps) = .error (.portionsSum ps) := by
  obtain ⟨aF, resF, hfold⟩ := foldlM_split_ok ⟨.fin c, cur⟩ c rfl ps (jqZ 0) c []
  unfold Money.split
  dsimp only
  rw [if_neg (by simpa [List.isEmpty_eq_true] using hne)]
  rw [hfold]
  have hbeq : (ps.foldl JQ.add (jqZ 0)).beq (jqZ 100) = false := by
    rw [← Bool.not_eq_true]
    intro h
    have := (JQ.beq_iff _ _).mp h
    rw [foldl_add_val, JQ.val_jqZ, JQ.val_jqZ] at this
    apply hsum
    have h0 : ((0 : ℤ) : ℚ) = 0 := by norm_num
    rw [h0, zero_add] at this
    rw [this]
    norm_num
  show (if (!(ps.foldl JQ.add (jqZ 0)).beq (jqZ 100)) = true then
      Except.error (MoneyErr.portionsSum ps) else pure resF) = _
  rw [hbeq]
  rfl

/-- `split` when the rounded shares fit every prefix and total exactly:
returns exactly the rounded shares. -/
lemma money_split_exact (z : ℤ) (cur : String) (ps : List JQ)
    (hne : ps ≠ [])
    (hsum : (ps.map JQ.val).sum = 100)
    (hpre : ∀ j, j ≤ ps.length → ((ps.take j).map (share (jqZ z))).sum ≤ z)
    (htot : (ps.map (share (jqZ z))).sum = z) :
    Money.split ⟨.fin (jqZ z), cur⟩ (some ps)
      = .ok (ps.map (fun p => ⟨.fin (jqD (share (jqZ z) p) 0), normCurrency (some cur)⟩)) := by
  have hpreQ : ∀ j, ((ps.take j).map (fun p => ((share (jqZ z) p : ℤ) : ℚ))).sum ≤ (jqZ z).val := by
    intro j
    rw [JQ.val_jqZ, ← cast_sum_shares]
    by_cases hj : j ≤ ps.length
    · exact_mod_cast hpre j hj
    · rw [List.take_of_length_le (by omega)]
      rw [htot]
  obtain ⟨aF, hfold, _⟩ := foldlM_split_noclamp ⟨.fin (jqZ z), cur⟩ (jqZ z) rfl ps (jqZ 0) (jqZ z) [] hpreQ
  unfold Money.split
  dsimp only
  rw [if_neg (by simpa [List.isEmpty_eq_true] using hne)]
  rw [hfold]
  have hbeq : (ps.foldl JQ.add (jqZ 0)).beq (jqZ 100) = true := by
    rw [JQ.beq_iff, foldl_add_val, JQ.val_jqZ, JQ.val_jqZ, hsum]
    norm_num
  show (if (!(ps.foldl JQ.add (jqZ 0)).beq (jqZ 100)) = true then
      Except.error (MoneyErr.portionsSum ps)
      else pure ([] ++ ps.map (fun p =>
        (⟨.fin (jqD (share (jqZ z) p) 0), normCurrency (some cur)⟩ : Money)))) = _
  rw [hbeq]
  simp only [List.nil_append, Bool.not_true, Bool.false_eq_true, if_false]
  rfl

/-! ## `Odds` helper lemmas -/

lemma JSNum.strictEqB_fin_iff (x y : JQ) :
    (JSNum.fin x).strictEqB (.fin y) = true ↔ x.val = y.val := JQ.beq_iff x y

lemma numToString_ne_dash (x : JSNum) : numToString x ≠ "-" := by
  cases x with
  | nan => decide
  | inf => decide
  | negInf => decide
  | fin q =>
      intro h
      have hd : (if q.isNeg then ['-'] else []) ++ natDigits ((JQ.floorZ q.abs).toNat) ++
          (if |q.n| - q.d * q.abs.floorZ ≤ 0 then []
           else '.' :: fracDigits 50 (|q.n| - q.d * q.abs.floorZ) q.d) = ['-'] :=
        congrArg String.data h
      by_cases hneg : q.isNeg = true
      · rw [if_pos hneg] at hd
        have hlen := congrArg List.length hd
        simp only [List.length_append, List.length_cons, List.length_nil] at hlen
        have h1 : 0 < (natDigits ((JQ.floorZ q.abs).toNat)).length :=
          List.length_pos.mpr (natDigits_ne_nil _)
        omega
      · rw [if_neg hneg, List.nil_append] at hd
        cases hnd : natDigits ((JQ.floorZ q.abs).toNat) with
        | nil => exact natDigits_ne_nil _ hnd
        | cons a as =>
            rw [hnd, List.cons_append] at hd
            injection hd with h1 _
            have hall := natDigits_all ((JQ.floorZ q.abs).toNat)
            rw [hnd, List.all_cons, Bool.and_eq_true] at hall
            rw [h1] at hall
            exact absurd hall.1 (by decide)

lemma plus_append_ne_dash (s : String) : "+" ++ s ≠ "-" := by
  intro h
  have hd : ('+' :: s.data) = ['-'] := by
    have h2 := congrArg String.data h
    rwa [String.data_append] at h2
  injection hd with h1 _
  exact absurd h1 (by decide)

/-- `dToA` returns the sentinel only through its `n === 1` branch. -/
lemma dToA_dash {p : String} (h : dToA p = "-") :
    (jsStrToNumber p).strictEqB (.fin (jqZ 1)) = true := by
  by_cases hs : (jsStrToNumber p).strictEqB (.fin (jqZ 1)) = true
  · exact hs
  · exfalso
    unfold dToA at h
    rw [if_neg hs] at h
    by_cases hlt : (jsStrToNumber p).ltB (.fin (jqZ 2)) = true
    · rw [if_pos hlt] at h
      exact numToString_ne_dash _ h
    · rw [if_neg hlt] at h
      exact plus_append_ne_dash _ h

lemma jqD_val_one (t : ℤ) (k : ℕ) (h : (jqD t k).val = 1) : t = 10 ^ k := by
  rw [JQ.val_jqD] at h
  rw [div_eq_one_iff_eq (by positivity : ((10:ℚ) ^ k) ≠ 0)] at h
  exact_mod_cast h

lemma tfVal_eq_pow (k : ℕ) (x : JQ) (h : tfVal k x = 10 ^ k) :
    x.isNeg = false ∧ (tfN k x.abs : ℤ) = 10 ^ k := by
  unfold tfVal at h
  by_cases hn : x.isNeg = true
  · rw [if_pos hn] at h
    exfalso
    have h1 : (0:ℤ) ≤ (tfN k x.abs : ℤ) := Int.natCast_nonneg _
    have h2 : (0:ℤ) < 10 ^ k := by positivity
    omega
  · rw [if_neg hn] at h
    exact ⟨Bool.not_eq_true _ |>.mp hn, h⟩

lemma parse_toFixed_dash (k : ℕ) (x : JQ) (h : dToA (toFixedJS k (.fin x)) = "-") :
    x.isNeg = false ∧ (tfN k x.abs : ℤ) = 10 ^ k := by
  have h1 := dToA_dash h
  rw [parse_toFixed_fin] at h1
  have h2 := (JSNum.strictEqB_fin_iff _ _).mp h1
  rw [JQ.val_jqZ] at h2
  have h3 : tfVal k x = 10 ^ k := jqD_val_one _ _ (by rw [h2]; norm_num)
  exact tfVal_eq_pow k x h3

/-- `d` and `a` are computed from different precisions in the decimal
branch: rounding to 3 decimals to exactly 1 forces rounding to 2 decimals
to exactly 1 as well. -/
lemma tfN_pow_imp (q : JQ) (h3 : (tfN 3 q.abs : ℤ) = 10 ^ 3) :
    (tfN 2 q.abs : ℤ) = 10 ^ 2 := by
  rw [tfN_abs_cast] at h3 ⊢
  set v := |q.val| with hv
  obtain ⟨hl, hr⟩ := Int.floor_eq_iff.mp h3
  apply Int.floor_eq_iff.mpr
  push_cast at hl hr ⊢
  norm_num at hl hr ⊢
  constructor <;> linarith

lemma toFixedFin_one (q : JQ) (hneg : q.isNeg = false) (h : (tfN 2 q.abs : ℤ) = 10 ^ 2) :
    toFixedFin 2 q = "1.00" := by
  have hN : tfN 2 q.abs = 100 := by exact_mod_cast h
  unfold toFixedFin
  rw [hneg, hN]
  decide

lemma dToA_toFixed_dash (x : JSNum) (h : dToA (toFixedJS 2 x) = "-") :
    toFixedJS 2 x = "1.00" := by
  cases x with
  | nan => exact absurd h (by decide)
  | inf => exact absurd h (by decide)
  | negInf => exact absurd h (by decide)
  | fin q =>
      obtain ⟨hneg, htf⟩ := parse_toFixed_dash 2 q h
      show toFixedFin 2 q = "1.00"
      exact toFixedFin_one q hneg htf

lemma dToA_toFixed3_dash (n : JSNum) (h : dToA (toFixedJS 3 n) = "-") :
    toFixedJS 2 n = "1.00" := by
  cases n with
  | nan => exact absurd h (by decide)
  | inf => exact absurd h (by decide)
  | negInf => exact absurd h (by decide)
  | fin q =>
      obtain ⟨hneg, htf⟩ := parse_toFixed_dash 3 q h
      show toFixedFin 2 q = "1.00"
      exact toFixedFin_one q hneg (tfN_pow_imp q htf)

lemma dBuild_ok (price : JSVal) (o : Odds) (h : dBuild price = .ok o) :
    o.d = toFixedJS 2 (jsToNumber price) ∧
    o.a = dToA (toFixedJS 3 (jsToNumber price)) := by
  unfold dBuild at h
  cases hv : validateD price with
  | error e =>
      rw [hv] at h
      exact absurd (show (Except.error e : Except OddsErr Odds) = Except.ok o from h) (by simp)
  | ok u =>
      rw [hv] at h
      have h3 : o = Odds.mk (toFixedJS 2 (jsToNumber price))
          (dToF (toFixedJS 3 (jsToNumber price))) (dToA (toFixedJS 3 (jsToNumber price))) :=
        (Except.ok.inj (show Except.ok (Odds.mk (toFixedJS 2 (jsToNumber price))
            (dToF (toFixedJS 3 (jsToNumber price))) (dToA (toFixedJS 3 (jsToNumber price))))
          = Except.ok o from h)).symm
      rw [h3]
      exact ⟨rfl, rfl⟩

lemma fBuild_ok (price : JSVal) (o : Odds) (h : fBuild price = .ok o) :
    ∃ ts, o.d = fToD ts ∧ o.a = dToA (fToD ts) := by
  unfold fBuild at h
  cases hts : jsToStringE price with
  | none =>
      rw [hts] at h
      exact absurd h (by simp)
  | some ts =>
      rw [hts] at h
      dsimp only at h
      cases hv : validateF (.str ts) with
      | error e =>
          rw [hv] at h
          exact absurd (show (Except.error e : Except OddsErr Odds) = Except.ok o from h) (by simp)
      | ok u =>
          rw [hv] at h
          have h3 : o = Odds.mk (fToD ts) (some ts) (dToA (fToD ts)) :=
            (Except.ok.inj (show Except.ok (Odds.mk (fToD ts) (some ts) (dToA (fToD ts)))
              = Except.ok o from h)).symm
          exact ⟨ts, by rw [h3], by rw [h3]⟩

lemma aBuild_ok (price : JSVal) (o : Odds) (h : aBuild price = .ok o) :
    ∃ ts, o.a = ts ∧ validateA (.str ts) = .ok () := by
  unfold aBuild at h
  cases hts : jsToStringE price with
  | none =>
      rw [hts] at h
      exact absurd h (by simp)
  | some ts =>
      rw [hts] at h
      dsimp only at h
      cases hv : validateA (.str ts) with
      | error e =>
          rw [hv] at h
          exact absurd (show (Except.error e : Except OddsErr Odds) = Except.ok o from h) (by simp)
      | ok u =>
          rw [hv] at h
          have h3 : o = Odds.mk (aToD ts) (dToF (toFixedJS 3 (jsStrToNumber (aToD ts)))) ts :=
            (Except.ok.inj (show Except.ok (Odds.mk (aToD ts)
                (dToF (toFixedJS 3 (jsStrToNumber (aToD ts)))) ts)
              = Except.ok o from h)).symm
          cases u
          exact ⟨ts, by rw [h3], hv⟩

lemma validateA_len {s : String} (h : validateA (.str s) = .ok ()) : 2 ≤ s.length := by
  unfold validateA at h
  dsimp only at h
  by_cases hl : s.length < 2
  · rw [if_pos hl] at h
    exact absurd h (by simp)
  · omega

lemma fToD_dash (ts : String) (h : dToA (fToD ts) = "-") : fToD ts = "1.00" := by
  unfold fToD at h ⊢
  exact dToA_toFixed_dash _ h

/-! ## Last supporting lemmas -/

lemma tfVal_cast (k : ℕ) (x : JQ) :
    ((tfVal k x : ℤ) : ℚ) = (if x.val < 0 then (-1:ℚ) else 1) * ((⌊|x.val| * 10 ^ k + 1/2⌋ : ℤ) : ℚ) := by
  unfold tfVal
  rw [isNeg_eq_decide]
  by_cases h : x.val < 0
  · rw [decide_eq_true h, if_pos rfl, if_pos h, tfN_abs_cast]
    push_cast
    ring
  · rw [decide_eq_false h, if_neg h]
    simp only [Bool.false_eq_true, if_false]
    rw [tfN_abs_cast]
    ring

lemma construct_inf (cur : Option String) :
    Money.construct (.num .inf) cur = .error .infinity := rfl

lemma construct_negInf (cur : Option String) :
    Money.construct (.num .negInf) cur = .error .infinity := rfl

lemma Money.eqB_refl_fin (m : Money) (x : JQ) (hm : m.cents = .fin x) : m.eqB m = true := by
  unfold Money.eqB
  rw [Bool.and_eq_true]
  refine ⟨?_, by simp⟩
  unfold Money.getUnit
  rw [hm]
  have hdiv : (JSNum.fin x).div (.fin (jqZ 100)) = .fin (x.div (jqZ 100)) := rfl
  rw [hdiv, parse_toFixed_fin]
  exact JSNum.strictEqB_refl_fin _

/-! ## Claim theorems -/

/-- C1 (counterexample): the claim "the subunit amounts returned by
`split` always sum exactly to `getSubunits()`" is false.  `Money(10)` split
over `[33, 33, 34]` — finite portions summing exactly to 100 — returns
subunit amounts `[3, 3, 3]`, which sum to 9, not 10: every rounded share
rounds down and the clamp branch never fires, so a subunit is lost. -/
theorem C1_counterexample :
    Money.construct (.num (.fin (jqZ 10))) (some "USD") = .ok ⟨.fin (jqD 10 0), "USD"⟩ ∧
    (([jqZ 33, jqZ 33, jqZ 34].map JQ.val).sum = 100) ∧
    Money.split ⟨.fin (jqD 10 0), "USD"⟩ (some [jqZ 33, jqZ 33, jqZ 34])
      = .ok [⟨.fin (jqD 3 0), "USD"⟩, ⟨.fin (jqD 3 0), "USD"⟩, ⟨.fin (jqD 3 0), "USD"⟩] ∧
    (jqD 3 0).val + (jqD 3 0).val + (jqD 3 0).val ≠ (jqD 10 0).val := by
  refine ⟨by decide, ?_, by decide, ?_⟩
  · norm_num [JQ.val_jqZ]
  · rw [jqD_zero_val, jqD_zero_val]
    norm_num

/-- C1 (amended): for an integral amount `z` and non-empty portions summing
exactly to 100, *when the rounded shares `round(z*p/100)` fit into the
remaining balance at every prefix and total exactly `z`*, `split` returns
exactly those rounded shares, ordered parallel to the portions, and their
subunit values sum to the original amount.  (The extra hypotheses are
forced by the counterexample: per-portion rounding can under- or
over-allocate, and the clamp branch only truncates a single overflowing
portion without zeroing the remaining balance.) -/
theorem C1_amended_split_exact (z : ℤ) (cur : String) (ps : List JQ)
    (hne : ps ≠ [])
    (hsum : (ps.map JQ.val).sum = 100)
    (hpre : ∀ j, j ≤ ps.length → ((ps.take j).map (share (jqZ z))).sum ≤ z)
    (htot : (ps.map (share (jqZ z))).sum = z) :
    Money.split ⟨.fin (jqZ z), cur⟩ (some ps)
      = .ok (ps.map (fun p => ⟨.fin (jqD (share (jqZ z) p) 0), normCurrency (some cur)⟩)) ∧
    (ps.map (fun p => (jqD (share (jqZ z) p) 0).val)).sum = (jqZ z).val := by
  refine ⟨money_split_exact z cur ps hne hsum hpre htot, ?_⟩
  simp only [jqD_zero_val]
  rw [← cast_sum_shares, htot, JQ.val_jqZ]

/-- C1 (witness): the spec's own example, `Money(225).split([50,25,25])`,
satisfies the amended hypotheses and yields shares `[113,56,56]`. -/
theorem C1_amended_split_exact_witness :
    Money.split ⟨.fin (jqZ 225), "USD"⟩ (some [jqZ 50, jqZ 25, jqZ 25])
      = .ok ([jqZ 50, jqZ 25, jqZ 25].map
          (fun p => ⟨.fin (jqD (share (jqZ 225) p) 0), normCurrency (some "USD")⟩)) ∧
    ([jqZ 50, jqZ 25, jqZ 25].map (fun p => (jqD (share (jqZ 225) p) 0).val)).sum
      = (jqZ 225).val :=
  C1_amended_split_exact 225 "USD" [jqZ 50, jqZ 25, jqZ 25]
    (by decide) (by norm_num [JQ.val_jqZ]) (by decide) (by decide)

/-- C2: `split` on any (finite-cents) `Money` with a non-empty list of
finite portions whose values do not sum exactly to 100 always throws the
`PortionsSumError` carrying the offending sequence, and never returns. -/
theorem C2_split_sum_check (c : JQ) (cur : String) (ps : List JQ)
    (hne : ps ≠ []) (hsum : (ps.map JQ.val).sum ≠ 100) :
    Money.split ⟨.fin c, cur⟩ (some ps) = .error (.portionsSum ps) :=
  money_split_portions_sum c cur ps hne hsum

/-- C2 (witness): the spec's example `[33.33, 66.66]`. -/
theorem C2_split_sum_check_witness :
    Money.split ⟨.fin (jqZ 95000), "USD"⟩ (some [jqD 3333 2, jqD 6666 2])
      = .error (.portionsSum [jqD 3333 2, jqD 6666 2]) :=
  C2_split_sum_check (jqZ 95000) "USD" [jqD 3333 2, jqD 6666 2] (by decide)
    (by norm_num [JQ.val, jqD])

/-- C5 (counterexample): the claim maps every present non-coercible
argument to `NotANumber` and says `MissingArgument` is only for absent
arguments; but `NaN` — present, not ±∞, not coercible to a finite number —
is falsy in JS, so `new Money(NaN)` throws `MissingArgument`. -/
theorem C5_counterexample :
    Money.construct (.num .nan) none = .error .missingArg ∧
    MoneyErr.missingArg ≠ .nanArg (.num .nan) := ⟨by decide, by decide⟩

/-- C5 (amended): falsy non-zero arguments (`null`, `undefined`, `NaN`,
`false`, `""`) fail with `MissingArgument`; present arguments that are not
number/string typed or coerce to NaN fail with `NotANumber`; zero is
accepted. -/
theorem C5_amended_constructor_errors (x : JSVal) (cur : Option String) :
    ((jsFalsy x && !jsStrictEqZero x) = true → Money.construct x cur = .error .missingArg) ∧
    ((jsFalsy x && !jsStrictEqZero x) = false →
      (((typeofStr x ≠ "number" ∧ typeofStr x ≠ "string") ∨ (jsToNumber x).isNaNB = true) →
        Money.construct x cur = .error (.nanArg x))) ∧
    Money.construct (.num (.fin (jqZ 0))) cur = .ok ⟨.fin (jqD 0 0), normCurrency cur⟩ := by
  refine ⟨?_, ?_, ?_⟩
  · intro h
    unfold Money.construct
    rw [if_pos h]
  · intro h1 h2
    unfold Money.construct
    rw [if_neg (by rw [h1]; simp), if_pos h2]
  · exact construct_int_val (jqZ 0) 0 (JQ.val_jqZ 0) cur

/-- C5 (witness): `new Money(true)` is present (truthy) and fails with
`NotANumber`. -/
theorem C5_amended_constructor_errors_witness :
    Money.construct (.bool true) none = .error (.nanArg (.bool true)) :=
  (C5_amended_constructor_errors (.bool true) none).2.1 (by decide) (by decide)

/-- C6 (counterexample): the claim says every input not coercible to a
finite number — including ±∞ — fails with `ConversionError`; but
`fromUnit(Infinity)` passes the guard (`Infinity` is truthy and not NaN)
and dies inside the constructor with the `NonFiniteAmount` error instead. -/
theorem C6_counterexample :
    Money.fromUnit (.num .inf) none = .error .infinity ∧
    MoneyErr.infinity ≠ .conversion (.num .inf) := ⟨by decide, by decide⟩

/-- C6 (amended): falsy-non-zero or NaN-coercing inputs fail with the
`ConversionError`; inputs coercing to a finite `q` yield
`round(q*100)` subunits (`toFixed(0)` rounding, half away from zero);
inputs coercing to ±∞ reach the constructor and fail with
`NonFiniteAmount`. -/
theorem C6_amended_fromUnit (x : JSVal) (cur : Option String) :
    (((jsFalsy x && !jsStrictEqZero x) || (jsToNumber x).isNaNB) = true →
      Money.fromUnit x cur = .error (.conversion x)) ∧
    (((jsFalsy x && !jsStrictEqZero x) || (jsToNumber x).isNaNB) = false →
      (∀ q : JQ, jsToNumber x = .fin q →
        Money.fromUnit x cur = .ok ⟨.fin (jqD (tfVal 0 (q.mul (jqZ 100))) 0), normCurrency cur⟩ ∧
        ((tfVal 0 (q.mul (jqZ 100)) : ℤ) : ℚ)
          = (if q.val * 100 < 0 then (-1:ℚ) else 1) * ((⌊|q.val * 100| + 1/2⌋ : ℤ) : ℚ)) ∧
      ((jsToNumber x = .inf ∨ jsToNumber x = .negInf) →
        Money.fromUnit x cur = .error .infinity)) := by
  constructor
  · intro h
    unfold Money.fromUnit
    rw [if_pos h]
  · intro h
    constructor
    · intro q hq
      constructor
      · unfold Money.fromUnit
        rw [if_neg (by rw [h]; simp), hq]
        show Money.construct (.num (jsStrToNumber (toFixedJS 0 (.fin (q.mul (jqZ 100)))))) cur = _
        rw [parse_toFixed_fin]
        exact construct_int_val _ _ (jqD_zero_val _) cur
      · have hv : (q.mul (jqZ 100)).val = q.val * 100 := by
          rw [JQ.val_mul, JQ.val_jqZ]
          norm_num
        rw [tfVal_cast, hv]
        norm_num
    · intro hinf
      unfold Money.fromUnit
      rw [if_neg (by rw [h]; simp)]
      rcases hinf with hinf | hinf
      · rw [hinf]
        have hvi : jsStrToNumber (toFixedJS 0 (JSNum.inf.mul (.fin (jqZ 100)))) = .inf := by decide
        rw [hvi]
        exact construct_inf cur
      · rw [hinf]
        have hvi : jsStrToNumber (toFixedJS 0 (JSNum.negInf.mul (.fin (jqZ 100)))) = .negInf := by
          decide
        rw [hvi]
        exact construct_negInf cur

/-- C6 (witness): the spec's example `fromUnit("19.99")` stores 1999. -/
theorem C6_amended_fromUnit_witness :
    Money.fromUnit (.str "19.99") none
      = .ok ⟨.fin (jqD (tfVal 0 ((jqD 1999 2).mul (jqZ 100))) 0), normCurrency none⟩ :=
  ((((C6_amended_fromUnit (.str "19.99") none).2 (by decide)).1 (jqD 1999 2) (by decide))).1

/-- C7: every finite number is accepted by the constructor, and the stored
subunits are the argument rounded by `toFixed(0)` — nearest integer, ties
away from zero (`sign(q)*⌊|q| + 1/2⌋`) — hence always an integer (the
stored numerator `tfVal 0 q : ℤ` over denominator `10^0`). -/
theorem C7_construct_rounds (q : JQ) (cur : Option String) :
    Money.construct (.num (.fin q)) cur = .ok ⟨.fin (jqD (tfVal 0 q) 0), normCurrency cur⟩ ∧
    ((tfVal 0 q : ℤ) : ℚ) = (if q.val < 0 then (-1:ℚ) else 1) * ((⌊|q.val| + 1/2⌋ : ℤ) : ℚ) := by
  refine ⟨construct_fin q cur, ?_⟩
  have h := tfVal_cast 0 q
  rw [pow_zero, mul_one] at h
  exact h

/-- C9: for constructed `Money` values of the same currency,
`a.plus(b).minus(b)` succeeds (neither operation throws) and the result
`eq`-compares equal to `a`. -/
theorem C9_plus_minus_roundtrip (q1 q2 : JQ) (c1 c2 : Option String) (a b : Money)
    (ha : Money.construct (.num (.fin q1)) c1 = .ok a)
    (hb : Money.construct (.num (.fin q2)) c2 = .ok b)
    (hcur : a.currency = b.currency) :
    ∃ s d : Money, a.plus (.inst b) = .ok s ∧ s.minus (.inst b) = .ok d ∧ d.eqB a = true := by
  have ha' : a = ⟨.fin (jqD (tfVal 0 q1) 0), normCurrency c1⟩ := by
    have h := construct_fin q1 c1
    rw [ha] at h
    exact Except.ok.inj h
  have hb' : b = ⟨.fin (jqD (tfVal 0 q2) 0), normCurrency c2⟩ := by
    have h := construct_fin q2 c2
    rw [hb] at h
    exact Except.ok.inj h
  set za := tfVal 0 q1 with hza
  set zb := tfVal 0 q2 with hzb
  have hplus := Money.plus_inst a b (jqD za 0) (jqD zb 0) (by rw [ha']) (by rw [hb']) hcur
  have hadd : ((jqD za 0).add (jqD zb 0)).val = ((za + zb : ℤ) : ℚ) := by
    rw [JQ.val_add, jqD_zero_val, jqD_zero_val]
    push_cast
    ring
  rw [construct_int_val _ _ hadd] at hplus
  set s : Money := ⟨.fin (jqD (za + zb) 0), normCurrency (some a.currency)⟩ with hs
  have hscur : s.currency = a.currency := by
    rw [hs]
    show normCurrency (some a.currency) = a.currency
    rw [ha']
    show normCurrency (some (normCurrency c1)) = normCurrency c1
    exact normCurrency_stable c1
  have hminus := Money.minus_inst s b (jqD (za + zb) 0) (jqD zb 0) rfl (by rw [hb'])
    (by rw [hscur, hcur])
  have hsub : ((jqD (za + zb) 0).add ((jqD zb 0).neg)).val = ((za : ℤ) : ℚ) := by
    rw [JQ.val_add, JQ.val_neg, jqD_zero_val, jqD_zero_val]
    push_cast
    ring
  rw [construct_int_val _ _ hsub] at hminus
  have hd : (⟨.fin (jqD za 0), normCurrency (some s.currency)⟩ : Money) = a := by
    rw [hscur, ha']
    show (⟨.fin (jqD za 0), normCurrency (some (normCurrency c1))⟩ : Money) = _
    rw [normCurrency_stable c1]
  rw [hd] at hminus
  exact ⟨s, a, hplus, hminus, Money.eqB_refl_fin a (jqD za 0) (by rw [ha'])⟩

/-- C9 (witness): `$2.00 + $3.00 - $3.00 == $2.00`. -/
theorem C9_plus_minus_roundtrip_witness :
    ∃ s d : Money,
      (Money.mk (.fin (jqD 200 0)) "USD").plus (.inst (Money.mk (.fin (jqD 300 0)) "USD"))
        = .ok s ∧
      s.minus (.inst (Money.mk (.fin (jqD 300 0)) "USD")) = .ok d ∧
      d.eqB (Money.mk (.fin (jqD 200 0)) "USD") = true :=
  C9_plus_minus_roundtrip (jqZ 200) (jqZ 300) (some "USD") (some "USD") _ _
    (by decide) (by decide) (by decide)

/-- C3: the four representative conversion triples from the spec, exactly
as constructed: `Odds(3.75,'d')`, `Odds('1/5','f')`, `Odds('+125','a')`
and the even-money edge case `Odds(1,'d')`. -/
theorem C3_representative_triples :
    Odds.make (.num (.fin (jqD 375 2))) (some "d") = .ok ⟨"3.75", some "11/4", "+275"⟩ ∧
    Odds.make (.str "1/5") (some "f") = .ok ⟨"1.20", some "1/5", "-500"⟩ ∧
    Odds.make (.str "+125") (some "a") = .ok ⟨"2.25", some "5/4", "+125"⟩ ∧
    Odds.make (.num (.fin (jqZ 1))) (some "d") = .ok ⟨"1.00", some "0/1", "-"⟩ :=
  ⟨by decide, by decide, by decide, by decide⟩

/-- C4 (counterexample): the claimed equivalence `a = "-" ↔ d = "1.00"`
fails: `d` is rounded to 2 decimals but `a` is derived from the 3-decimal
rounding, so `Odds(1.004,'d')` has `d = "1.00"` while `a = "-25000"`. -/
theorem C4_counterexample :
    Odds.make (.num (.fin (jqD 1004 3))) (some "d") = .ok ⟨"1.00", some "0/1", "-25000"⟩ ∧
    ("-25000" : String) ≠ "-" :=
  ⟨by decide, by decide⟩

/-- C4 (amended): one direction survives: for every successfully
constructed `Odds`, if the `american` field is the sentinel `"-"` then the
`decimal` field is `"1.00"`.  (The converse and the `"±N"→ shape for other
values fail, per the counterexample and e.g. `Odds(0.5,'d').a = "200"`.) -/
theorem C4_amended_dash_imp (price : JSVal) (format : Option String) (o : Odds)
    (h : Odds.make price format = .ok o) (ha : o.a = "-") : o.d = "1.00" := by
  unfold Odds.make at h
  dsimp only at h
  by_cases h1 : format = none ∨ format = some ""
  · rw [if_pos h1] at h
    obtain ⟨hdd, haa⟩ := dBuild_ok _ _ h
    rw [haa] at ha
    rw [hdd]
    exact dToA_toFixed3_dash _ ha
  · rw [if_neg h1] at h
    by_cases h2 : (List.map lowChar (format.getD "").data).head? = some 'd'
    · rw [if_pos h2] at h
      obtain ⟨hdd, haa⟩ := dBuild_ok _ _ h
      rw [haa] at ha
      rw [hdd]
      exact dToA_toFixed3_dash _ ha
    · rw [if_neg h2] at h
      by_cases h3 : (List.map lowChar (format.getD "").data).head? = some 'f'
      · rw [if_pos h3] at h
        obtain ⟨ts, hdd, haa⟩ := fBuild_ok _ _ h
        rw [haa] at ha
        rw [hdd]
        exact fToD_dash ts ha
      · rw [if_neg h3] at h
        by_cases h4 : (List.map lowChar (format.getD "").data).head? = some 'a'
        · rw [if_pos h4] at h
          obtain ⟨ts, haa, hv⟩ := aBuild_ok _ _ h
          exfalso
          rw [haa] at ha
          have hlen := validateA_len hv
          rw [ha] at hlen
          exact absurd hlen (by decide)
        · rw [if_neg h4] at h
          exact absurd h (by simp)

/-- C4 (witness): `Odds(1,'d')` has `a = "-"` and indeed `d = "1.00"`. -/
theorem C4_amended_dash_imp_witness :
    Odds.make (.num (.fin (jqZ 1))) (some "d") = .ok ⟨"1.00", some "0/1", "-"⟩ ∧
    ("1.00" : String) = "1.00" :=
  ⟨by decide, C4_amended_dash_imp (.num (.fin (jqZ 1))) (some "d") ⟨"1.00", some "0/1", "-"⟩
    (by decide) (by decide)⟩

/-- C8 (counterexample): in the fractional branch the price is first
stringified, so a boolean never reaches the `typeof`-guard: `Odds(false,'f')`
fails with `InvalidFractionalOdds "false"`, not with `InvalidPrice`. -/
theorem C8_counterexample :
    Odds.make (.bool false) (some "f") = .error (.invalidFraction "false") ∧
    OddsErr.invalidFraction "false" ≠ .invalidPrice "false" :=
  ⟨by decide, by decide⟩

/-- C8 (amended): with format `'f'`/`'a'`, `null`/`undefined` prices crash
with a native TypeError from `price.toString()`, and booleans are
stringified and rejected by the fraction/american shape checks (naming the
stringified input) — `InvalidPrice` is not raised for any of them. -/
theorem C8_amended_fa_non_string :
    Odds.make .null (some "f") = .error .typeError ∧
    Odds.make .undef (some "f") = .error .typeError ∧
    Odds.make .null (some "a") = .error .typeError ∧
    Odds.make .undef (some "a") = .error .typeError ∧
    Odds.make (.bool false) (some "f") = .error (.invalidFraction "false") ∧
    Odds.make (.bool true) (some "f") = .error (.invalidFraction "true") ∧
    Odds.make (.bool false) (some "a") = .error (.invalidAmerican "false") ∧
    Odds.make (.bool true) (some "a") = .error (.invalidAmerican "true") :=
  ⟨by decide, by decide, by decide, by decide, by decide, by decide, by decide, by decide⟩

/-- C10: fractional construction has no positivity check: `Odds('-3/2','f')`
succeeds, stores `d = "-0.50"` — whose numeric value `-1/2` is ≤ 0 — while
decimal construction of that same price fails with `NonPositiveOdds`. -/
theorem C10_fractional_no_positivity :
    Odds.make (.str "-3/2") (some "f") = .ok ⟨"-0.50", some "-3/2", "67"⟩ ∧
    jsStrToNumber "-0.50" = .fin ((jqD 50 2).neg) ∧
    ((jqD 50 2).neg).val ≤ 0 ∧
    Odds.make (.num (.fin ((jqD 50 2).neg))) (some "d") = .error .negative := by
  refine ⟨by decide, by decide, ?_, by decide⟩
  rw [JQ.val_neg, JQ.val_jqD]
  norm_num
